import Mathlib

/-
  Verification of the kopia repository core against its specification.

  The development has two parts:
  * `Metadata` — a shallow embedding of `metadata/metadata_manager.go`
    (the metadata manager: reserved names, AEAD encryption wrapping,
    MultiGet/RemoveMany, error remapping).
  * `Repo` — a model of the object/block layer (content-addressed blocks,
    MD5-based `TESTONLY_MD5` content addresses, packing, pack indexes and
    index compaction).  Only tests of that layer are in the covered source,
    so these definitions are modelled from the specification text.

  Bytes are modelled as `List Nat` (each entry a byte value); Go maps keyed
  by strings are association lists; Go's `(value, error)` returns become an
  explicit result type that also records runtime panics.
-/

/-- A byte string: the contents of blocks, items and nonces. -/
abbrev Bytes := List Nat

/-- Errors produced by the external flat blob-storage backend.
`errBlockNotFound` is `storage.ErrBlockNotFound`; `other` stands for any
other backend I/O failure. -/
inductive StorageErr where
  | errBlockNotFound
  | other (msg : String)
  deriving DecidableEq, Repr

namespace Metadata

/-- Errors returned by the metadata manager
(from `metadata/metadata_manager.go`). -/
inductive MError where
  /-- `ErrNotFound = errors.New("metadata not found")`. -/
  | errNotFound
  /-- `fmt.Errorf("invalid metadata item name: '%v'", itemID)`. -/
  | invalidArgument (itemID : String)
  /-- `fmt.Errorf("unexpected error reading %v: %v", ...)`. -/
  | unexpectedError (itemID : String)
  /-- AEAD `Open` authentication failure. -/
  | aeadOpenFailed
  /-- `json.Marshal` / `json.Unmarshal` failure. -/
  | jsonError
  deriving DecidableEq, Repr

/-- The outcome of a Go function returning `(α, error)`: a value, an error,
or a runtime panic (Go panics, e.g. slice bounds out of range, are neither
values nor errors). -/
inductive GoResult (α : Type) where
  | ok (a : α)
  | error (e : MError)
  | panic
  deriving DecidableEq, Repr

/-- The flat keyed store backing the metadata cache: item name to stored
blob.  Modelled from the spec: the `metadataCache` delegates `PutBlock` /
`GetBlock` / `DeleteBlock` to the storage backend (its own source is not in
the covered files); the cache layer only memoises the ID list. -/
abbrev Store := List (String × Bytes)

/-- `GetBlock`: look a block up, `storage.ErrBlockNotFound` when absent. -/
def getBlock (st : Store) (id : String) : Except StorageErr Bytes :=
  match st.lookup id with
  | some b => .ok b
  | none => .error .errBlockNotFound

/-- `PutBlock`: map update (overwrite an existing key, else append). -/
def putBlock : Store → String → Bytes → Store
  | [], id, b => [(id, b)]
  | (k, v) :: rest, id, b =>
    if k = id then (id, b) :: rest else (k, v) :: putBlock rest id b

/-- `DeleteBlock`: remove the binding for `id`. -/
def deleteBlock (st : Store) (id : String) : Store :=
  st.filter (fun p => ¬ p.1 = id)

/-- `cipher.AEAD` (Go standard library, external): nonce size, tag
overhead, `Seal nonce plaintext additionalData` and
`Open nonce ciphertext additionalData`. -/
structure AEAD where
  NonceSize : Nat
  Overhead : Nat
  Seal : Bytes → Bytes → Bytes → Bytes
  Open : Bytes → Bytes → Bytes → Option Bytes

/-- `Manager`: the AEAD (absent for the `NONE` algorithm) and the derived
additional authenticated data. -/
structure Manager where
  aead : Option AEAD
  authData : Bytes

/-- `isReservedName`. -/
def isReservedName (itemID : String) : Bool :=
  itemID == "format" || itemID == "repo"

/-- `checkReservedName`: the error it returns, if any. -/
def checkReservedName (itemID : String) : Option MError :=
  if isReservedName itemID then some (.invalidArgument itemID) else none

/-- `Manager.writeEncryptedBlock`.  The random nonce drawn from
`rand.Reader` is passed explicitly; the GCM branch stores
`nonce ++ Seal(nonce, content, authData)`, the `NONE` branch stores the
plaintext unchanged. -/
def Manager.writeEncryptedBlock (mm : Manager) (nonce : Bytes) (st : Store)
    (itemID : String) (content : Bytes) : GoResult Unit × Store :=
  match mm.aead with
  | some a => (.ok (), putBlock st itemID (nonce ++ a.Seal nonce content mm.authData))
  | none => (.ok (), putBlock st itemID content)

/-- `Manager.decryptBlock`.  Go slices `content[0:NonceSize]` without a
length check: when the blob is shorter than the nonce size this is a
slice-bounds panic, which the embedding records as `.panic`. -/
def Manager.decryptBlock (mm : Manager) (content : Bytes) : GoResult Bytes :=
  match mm.aead with
  | some a =>
    if content.length < a.NonceSize then .panic
    else
      match a.Open (content.take a.NonceSize) (content.drop a.NonceSize) mm.authData with
      | some p => .ok p
      | none => .error .aeadOpenFailed
  | none => .ok content

/-- `Manager.readEncryptedBlock`: storage `ErrBlockNotFound` is remapped to
the domain error `ErrNotFound`; other storage errors are wrapped; found
blobs are decrypted. -/
def Manager.readEncryptedBlock (mm : Manager) (st : Store) (itemID : String) : GoResult Bytes :=
  match getBlock st itemID with
  | .error .errBlockNotFound => .error .errNotFound
  | .error (.other _) => .error (.unexpectedError itemID)
  | .ok content => mm.decryptBlock content

/-- `Manager.Put`. -/
def Manager.Put (mm : Manager) (nonce : Bytes) (st : Store)
    (itemID : String) (content : Bytes) : GoResult Unit × Store :=
  match checkReservedName itemID with
  | some e => (.error e, st)
  | none => mm.writeEncryptedBlock nonce st itemID content

/-- `Manager.GetMetadata`. -/
def Manager.GetMetadata (mm : Manager) (st : Store) (itemID : String) : GoResult Bytes :=
  match checkReservedName itemID with
  | some e => .error e
  | none => mm.readEncryptedBlock st itemID

/-- `Manager.GetJSON`: note that, unlike `GetMetadata`, it calls
`readEncryptedBlock` directly with NO reserved-name check.  JSON decoding
is external (`json.Unmarshal`), passed as `unmarshal`. -/
def Manager.GetJSON {α : Type} (mm : Manager) (unmarshal : Bytes → Option α)
    (st : Store) (itemID : String) : GoResult α :=
  match mm.readEncryptedBlock st itemID with
  | .ok j =>
    match unmarshal j with
    | some v => .ok v
    | none => .error .jsonError
  | .error e => .error e
  | .panic => .panic

/-- `Manager.PutJSON`: marshals and calls `writeEncryptedBlock` directly,
with NO reserved-name check.  JSON encoding is external (`json.Marshal`),
passed as `marshal`. -/
def Manager.PutJSON {α : Type} (mm : Manager) (nonce : Bytes) (marshal : α → Option Bytes)
    (st : Store) (id : String) (content : α) : GoResult Unit × Store :=
  match marshal content with
  | none => (.error .jsonError, st)
  | some j => mm.writeEncryptedBlock nonce st id j

/-- `Manager.Remove`. -/
def Manager.Remove (mm : Manager) (st : Store) (itemID : String) : GoResult Unit × Store :=
  match checkReservedName itemID with
  | some e => (.error e, st)
  | none => (.ok (), deleteBlock st itemID)

/-- The result-collection loop of `Manager.MultiGet` (lines 157-167): each
received result either overwrites `resultErr` (when it carries an error) or
is added to the result map.  The worker pool delivers one result per item;
arrival order is scheduler-dependent, and the embedding processes them in
input order (reads are independent, so the per-item results do not depend
on the schedule).  A panic in a worker goroutine crashes the process. -/
def multiGetCollect (mm : Manager) (st : Store) :
    List String → Option MError → List (String × Bytes) → GoResult (List (String × Bytes))
  | [], resultErr, resultMap =>
    match resultErr with
    | some e => .error e
    | none => .ok resultMap
  | itemID :: rest, resultErr, resultMap =>
    match mm.GetMetadata st itemID with
    | .ok v => multiGetCollect mm st rest resultErr (resultMap ++ [(itemID, v)])
    | .error e => multiGetCollect mm st rest (some e) resultMap
    | .panic => .panic

/-- `Manager.MultiGet`. -/
def Manager.MultiGet (mm : Manager) (st : Store) (itemIDs : List String) :
    GoResult (List (String × Bytes)) :=
  multiGetCollect mm st itemIDs none []

/-- The worker loop of `Manager.RemoveMany`: each item is removed via
`Remove`; errors are sent to `errch`.  After all workers finish, the
function returns the first error received from `errch` (or the zero value
`nil` when the closed channel is empty). -/
def removeManyLoop (mm : Manager) :
    Store → List String → List MError → GoResult Unit × Store
  | st, [], errs =>
    match errs with
    | [] => (.ok (), st)
    | e :: _ => (.error e, st)
  | st, itemID :: rest, errs =>
    match mm.Remove st itemID with
    | (.ok _, st') => removeManyLoop mm st' rest errs
    | (.error e, st') => removeManyLoop mm st' rest (errs ++ [e])
    | (.panic, _) => (.panic, st)

/-- `Manager.RemoveMany`. -/
def Manager.RemoveMany (mm : Manager) (st : Store) (itemIDs : List String) :
    GoResult Unit × Store :=
  removeManyLoop mm st itemIDs []

end Metadata

namespace MD5

/-
  Modelled from the spec: the `TESTONLY_MD5` block format computes the MD5
  digest of the block payload (the hash itself lives in the Go standard
  library `crypto/md5`, outside the covered source).  This is a direct
  implementation of MD5 over byte lists, with 32-bit words as `Nat` reduced
  modulo `2^32`.
-/

/-- Addition modulo `2^32`. -/
def add32 (a b : Nat) : Nat := (a + b) % 4294967296

/-- 32-bit left rotation. -/
def rotl32 (x n : Nat) : Nat :=
  ((x <<< n) % 4294967296) ||| (x >>> (32 - n))

/-- 32-bit bitwise complement. -/
def not32 (x : Nat) : Nat := x ^^^ 4294967295

/-- Per-round shift amounts. -/
def shiftTable : List Nat :=
  [7, 12, 17, 22, 7, 12, 17, 22, 7, 12, 17, 22, 7, 12, 17, 22,
   5, 9, 14, 20, 5, 9, 14, 20, 5, 9, 14, 20, 5, 9, 14, 20,
   4, 11, 16, 23, 4, 11, 16, 23, 4, 11, 16, 23, 4, 11, 16, 23,
   6, 10, 15, 21, 6, 10, 15, 21, 6, 10, 15, 21, 6, 10, 15, 21]

/-- Sine-derived round constants. -/
def sineTable : List Nat :=
  [0xd76aa478, 0xe8c7b756, 0x242070db, 0xc1bdceee,
   0xf57c0faf, 0x4787c62a, 0xa8304613, 0xfd469501,
   0x698098d8, 0x8b44f7af, 0xffff5bb1, 0x895cd7be,
   0x6b901122, 0xfd987193, 0xa679438e, 0x49b40821,
   0xf61e2562, 0xc040b340, 0x265e5a51, 0xe9b6c7aa,
   0xd62f105d, 0x02441453, 0xd8a1e681, 0xe7d3fbc8,
   0x21e1cde6, 0xc33707d6, 0xf4d50d87, 0x455a14ed,
   0xa9e3e905, 0xfcefa3f8, 0x676f02d9, 0x8d2a4c8a,
   0xfffa3942, 0x8771f681, 0x6d9d6122, 0xfde5380c,
   0xa4beea44, 0x4bdecfa9, 0xf6bb4b60, 0xbebfbc70,
   0x289b7ec6, 0xeaa127fa, 0xd4ef3085, 0x04881d05,
   0xd9d4d039, 0xe6db99e5, 0x1fa27cf8, 0xc4ac5665,
   0xf4292244, 0x432aff97, 0xab9423a7, 0xfc93a039,
   0x655b59c3, 0x8f0ccc92, 0xffeff47d, 0x85845dd1,
   0x6fa87e4f, 0xfe2ce6e0, 0xa3014314, 0x4e0811a1,
   0xf7537e82, 0xbd3af235, 0x2ad7d2bb, 0xeb86d391]

/-- One of the 64 compression steps. -/
def step (M : List Nat) (i : Nat) (st : Nat × Nat × Nat × Nat) : Nat × Nat × Nat × Nat :=
  let (a, b, c, d) := st
  let fg : Nat × Nat :=
    if i < 16 then ((b &&& c) ||| (not32 b &&& d), i)
    else if i < 32 then ((d &&& b) ||| (not32 d &&& c), (5 * i + 1) % 16)
    else if i < 48 then (b ^^^ c ^^^ d, (3 * i + 5) % 16)
    else (c ^^^ (b ||| not32 d), (7 * i) % 16)
  let t := add32 (add32 (add32 a fg.1) (sineTable.getD i 0)) (M.getD fg.2 0)
  (d, add32 b (rotl32 t (shiftTable.getD i 0)), b, c)

/-- Compress one 16-word block into the running state. -/
def compressBlock (st : Nat × Nat × Nat × Nat) (M : List Nat) : Nat × Nat × Nat × Nat :=
  let r := (List.range 64).foldl (fun acc i => step M i acc) st
  (add32 st.1 r.1, add32 st.2.1 r.2.1, add32 st.2.2.1 r.2.2.1, add32 st.2.2.2 r.2.2.2)

/-- Little-endian rendering of a value on `n` bytes. -/
def toLE : Nat → Nat → Bytes
  | 0, _ => []
  | n + 1, v => v % 256 :: toLE n (v / 256)

/-- Group bytes into little-endian 32-bit words. -/
def bytesToWords : Bytes → List Nat
  | b0 :: b1 :: b2 :: b3 :: rest =>
    (b0 + 256 * b1 + 65536 * b2 + 16777216 * b3) :: bytesToWords rest
  | _ => []

/-- MD5 padding: a `0x80` byte, zeros up to 56 mod 64, then the bit length
on 8 little-endian bytes. -/
def pad (msg : Bytes) : Bytes :=
  let k := (64 + 55 - msg.length % 64) % 64
  msg ++ 128 :: List.replicate k 0 ++ toLE 8 (8 * msg.length)

/-- Fold the compression function over consecutive 16-word blocks. -/
def blocksLoop (st : Nat × Nat × Nat × Nat) : List Nat → Nat × Nat × Nat × Nat
  | w0 :: w1 :: w2 :: w3 :: w4 :: w5 :: w6 :: w7 ::
    w8 :: w9 :: w10 :: w11 :: w12 :: w13 :: w14 :: w15 :: rest =>
    blocksLoop (compressBlock st [w0, w1, w2, w3, w4, w5, w6, w7,
                                  w8, w9, w10, w11, w12, w13, w14, w15]) rest
  | _ => st

/-- The 16-byte MD5 digest of a message. -/
def digest (msg : Bytes) : Bytes :=
  let r := blocksLoop (0x67452301, 0xefcdab89, 0x98badcfe, 0x10325476)
    (bytesToWords (pad msg))
  toLE 4 r.1 ++ toLE 4 r.2.1 ++ toLE 4 r.2.2.1 ++ toLE 4 r.2.2.2

/-- Lowercase hex digit. -/
def hexDigit (n : Nat) : Char :=
  Char.ofNat (if n < 10 then 48 + n else 87 + n)

/-- Lowercase hex rendering of a byte string. -/
def bytesToHex (bs : Bytes) : String :=
  String.mk (bs.flatMap (fun b => [hexDigit (b / 16), hexDigit (b % 16)]))

end MD5

/-- The bytes of an ASCII string. -/
def strBytes (s : String) : Bytes := s.toList.map Char.toNat

/-- The 32-hex-character MD5 content address of a payload
(block format `TESTONLY_MD5`). -/
def md5Hex (b : Bytes) : String := MD5.bytesToHex (MD5.digest b)

namespace Repo

/-
  Modelled from the spec: the object/block layer (object writer and reader,
  block manager with packing, pack indexes and index compaction, repository
  bootstrap).  Its implementation is not among the covered source files —
  only its tests are — so the definitions below follow the specification
  text (sections 3, 4.2-4.5 and 8), at the granularity the verified claims
  need.
-/

/-- A storage key.  The spec keeps several disjoint key namespaces in the
flat backend map: the repository format items (reserved metadata names),
data blocks keyed by their own content-address, pack files under freshly
generated keys, and `P`-prefixed pack-index blocks.  Fresh pack keys are
modelled by a counter (the source uses a random suffix ensuring
uniqueness). -/
inductive BlockKey where
  | meta (name : String)
  | content (addr : String)
  | pack (n : Nat)
  | packIndex (n : Nat)
  deriving DecidableEq, Repr

/-- A pack-index entry: the pack file holding the block and the
`(offset, length)` slice inside it.  A standalone (non-packed) block is
recorded against its own content-address key. -/
structure BlockIndexEntry where
  packBlockID : BlockKey
  offset : Nat
  length : Nat
  deriving DecidableEq, Repr

/-- A pack-index block: creation timestamp plus the map from
content-address to slice. -/
structure IndexBlock where
  createTime : Nat
  items : List (String × BlockIndexEntry)
  deriving DecidableEq, Repr

/-- A stored blob: either raw data (a data block, a pack file, or a format
block) or a pack index. -/
inductive Blob where
  | data (b : Bytes)
  | index (ib : IndexBlock)
  deriving DecidableEq, Repr

/-- The flat storage backend: an association map from key to blob. -/
abbrev Storage := List (BlockKey × Blob)

/-- Map update: overwrite an existing key, else append. -/
def putBlob : Storage → BlockKey → Blob → Storage
  | [], k, v => [(k, v)]
  | (k', v') :: rest, k, v =>
    if k' = k then (k, v) :: rest else (k', v') :: putBlob rest k v

/-- The pack-index blocks present in storage, in storage order. -/
def indexBlocksOf (st : Storage) : List (BlockKey × IndexBlock) :=
  st.filterMap (fun p => match p.2 with
    | .index ib => some (p.1, ib)
    | .data _ => none)

/-- All entries for one content-address across a list of index blocks,
tagged with the owning block's creation time and key. -/
def entriesFor (addr : String) (blocks : List (BlockKey × IndexBlock)) :
    List (Nat × BlockKey × BlockIndexEntry) :=
  blocks.filterMap (fun p => (p.2.items.lookup addr).map (fun e => (p.2.createTime, p.1, e)))

/-- Total order used for the newest-wins rule: later creation time wins,
with a deterministic tiebreak on the carrying block's key. -/
def keyRank : BlockKey → Nat × String × Nat
  | .meta s => (0, s, 0)
  | .content s => (1, s, 0)
  | .pack n => (2, "", n)
  | .packIndex n => (3, "", n)

/-- Strict lexicographic order on storage keys. -/
def keyLt (a b : BlockKey) : Bool :=
  let x := keyRank a
  let y := keyRank b
  x.1 < y.1 || (x.1 == y.1 && (decide (x.2.1 < y.2.1) ||
    (x.2.1 == y.2.1 && x.2.2 < y.2.2)))

/-- Whether entry `x` beats entry `y` under the newest-wins rule. -/
def newer (x y : Nat × BlockKey × BlockIndexEntry) : Bool :=
  y.1 < x.1 || (x.1 == y.1 && keyLt y.2.1 x.2.1)

/-- The winning entry of a candidate list (newest creation time, tiebreak
on pack-index key). -/
def pickBest : List (Nat × BlockKey × BlockIndexEntry) →
    Option (Nat × BlockKey × BlockIndexEntry)
  | [] => none
  | x :: l =>
    match pickBest l with
    | none => some x
    | some a => if newer x a then some x else some a

/-- The live pack-index entry for a content-address, resolved against all
pack indexes in storage (what a fresh open computes for its in-memory
index): the newest entry per content-address wins. -/
def lookupLive (st : Storage) (addr : String) : Option BlockIndexEntry :=
  (pickBest (entriesFor addr (indexBlocksOf st))).map (fun t => t.2.2)

/-- `GetBlock` resolved against persisted state: a content-address is read
through its live pack-index entry when one exists, else directly under its
own key; storage reports `ErrBlockNotFound` when neither is present. -/
def readBlock (st : Storage) (addr : String) : Except StorageErr Bytes :=
  match lookupLive st addr with
  | some e =>
    match st.lookup e.packBlockID with
    | some (.data b) => .ok ((b.drop e.offset).take e.length)
    | _ => .error .errBlockNotFound
  | none =>
    match st.lookup (.content addr) with
    | some (.data b) => .ok b
    | _ => .error .errBlockNotFound

/-- An object identifier.  The verified claims only exercise direct
objects: `StorageBlock` is the content-address hex string (text form
`D<hex>`). -/
structure ObjectID where
  StorageBlock : String
  deriving DecidableEq, Repr

/-- The text form of a direct object ID: `D` followed by the hex
content-address. -/
def ObjectID.text (o : ObjectID) : String := "D" ++ o.StorageBlock

/-- `ParseID`: inverse of the text form, for direct IDs. -/
def ParseID (s : String) : Option ObjectID :=
  match s.toList with
  | 'D' :: rest => some ⟨String.mk rest⟩
  | _ => none

/-- Errors of the object-layer `Open`: an underlying storage error
surfaced unchanged, or a malformed-data error (payload inconsistent with
the declared content-address). -/
inductive OpenError where
  | storage (e : StorageErr)
  | malformed
  deriving DecidableEq, Repr

/-- Object-layer `Open` for a direct ID: fetch the block; a storage error
(in particular `ErrBlockNotFound`) is surfaced unchanged; a payload that no
longer matches the declared content-address is a malformed-data error. -/
def openObject (st : Storage) (oid : ObjectID) : Except OpenError Bytes :=
  match readBlock st oid.StorageBlock with
  | .error e => .error (.storage e)
  | .ok payload =>
    if md5Hex payload == oid.StorageBlock then .ok payload
    else .error .malformed

/-- The block manager plus repository configuration: the persisted storage,
the in-memory block index, the current pack group (`pendingPackBlocks`),
the index entries of standalone blocks awaiting the next index write
(`pendingIndexItems`), a counter generating fresh pack keys, and the clock
stamped onto written indexes. -/
structure Repository where
  maxBlockSize : Nat
  maxPackedContentLength : Int
  storage : Storage
  memIndex : List (String × BlockIndexEntry)
  pendingPackBlocks : List (String × Bytes)
  pendingIndexItems : List (String × BlockIndexEntry)
  packCounter : Nat
  clock : Nat
  deriving Repr

/-- `WriteBlock`: hash the content to its address; a known address is a
dedup no-op; a block no longer than `MaxPackedContentLength` joins the
current pack group; a larger one (or any block when packing is disabled)
is stored standalone under its content-address and recorded for the next
index write. -/
def writeBlock (r : Repository) (content : Bytes) : String × Repository :=
  let addr := md5Hex content
  if (r.memIndex.lookup addr).isSome || (r.pendingPackBlocks.lookup addr).isSome then
    (addr, r)
  else if 0 ≤ r.maxPackedContentLength ∧ (content.length : Int) ≤ r.maxPackedContentLength then
    (addr, { r with pendingPackBlocks := r.pendingPackBlocks ++ [(addr, content)] })
  else
    (addr, { r with
      storage := putBlob r.storage (.content addr) (.data content),
      memIndex := r.memIndex ++ [(addr, ⟨.content addr, 0, content.length⟩)],
      pendingIndexItems := r.pendingIndexItems ++ [(addr, ⟨.content addr, 0, content.length⟩)] })

/-- Index entries for a sealed pack group: consecutive `(offset, length)`
slices of the concatenated buffer. -/
def packEntries (packKey : BlockKey) (off : Nat) :
    List (String × Bytes) → List (String × BlockIndexEntry)
  | [] => []
  | (addr, c) :: rest => (addr, ⟨packKey, off, c.length⟩) :: packEntries packKey (off + c.length) rest

/-- `Flush`: seal the current pack group (write the concatenated buffer
under a fresh pack key) and write one pack-index block covering the sealed
group and the standalone blocks written since the last flush.  A flush
with nothing pending writes nothing. -/
def flush (r : Repository) : Repository :=
  if r.pendingPackBlocks.isEmpty && r.pendingIndexItems.isEmpty then r
  else
    let pk : BlockKey := .pack r.packCounter
    let packItems := packEntries pk 0 r.pendingPackBlocks
    let st1 :=
      if r.pendingPackBlocks.isEmpty then r.storage
      else putBlob r.storage pk (.data (r.pendingPackBlocks.map Prod.snd).flatten)
    let st2 := putBlob st1 (.packIndex r.packCounter)
      (.index ⟨r.clock, packItems ++ r.pendingIndexItems⟩)
    { r with
      storage := st2,
      memIndex := r.memIndex ++ packItems,
      pendingPackBlocks := [],
      pendingIndexItems := [],
      packCounter := r.packCounter + 1,
      clock := r.clock + 1 }

/-- A per-object writer: it buffers written bytes (the splitter cuts the
buffer into chunks when the object is finalised). -/
structure ObjectWriter where
  buffer : Bytes
  deriving Repr

/-- `Write`: append to the buffer. -/
def ObjectWriter.write (w : ObjectWriter) (b : Bytes) : ObjectWriter :=
  ⟨w.buffer ++ b⟩

/-- The `FIXED` splitter, fuelled for structural recursion: cut the stream
every `maxBlockSize` bytes. -/
def chunkifyAux (maxBlockSize : Nat) : Nat → Bytes → List Bytes
  | 0, b => [b]
  | fuel + 1, b =>
    if b.length ≤ maxBlockSize then [b]
    else b.take maxBlockSize :: chunkifyAux maxBlockSize fuel (b.drop maxBlockSize)

/-- The `FIXED` splitter: cut the stream every `maxBlockSize` bytes,
trailing bytes forming the final chunk. -/
def chunkify (maxBlockSize : Nat) (b : Bytes) : List Bytes :=
  if maxBlockSize = 0 then [b] else chunkifyAux maxBlockSize b.length b

/-- `Result`: split the buffer with the `FIXED` splitter and write the
chunks.  A single chunk yields a direct object ID.  A multi-chunk buffer
yields an indirect object via a recursive writer; the verified claims only
exercise single-chunk (direct) objects, and the model leaves the
multi-chunk outcome unspecified (`none`). -/
def ObjectWriter.result (w : ObjectWriter) (r : Repository) : Option (ObjectID × Repository) :=
  match chunkify r.maxBlockSize w.buffer with
  | [c] =>
    let p := writeBlock r c
    some (⟨p.1⟩, p.2)
  | _ => none

/-- Write one whole content through a fresh object writer. -/
def writeObject (r : Repository) (content : Bytes) : Option (ObjectID × Repository) :=
  (ObjectWriter.write ⟨[]⟩ content).result r

/-- `writeObject`, defaulting to an unchanged repository on the unmodelled
multi-chunk path (never taken in the verified scenarios). -/
def writeObjectD (r : Repository) (content : Bytes) : ObjectID × Repository :=
  (writeObject r content).getD (⟨""⟩, r)

/-- The storage contents right after `Initialize`: the two format-related
blocks stored under the reserved metadata names. -/
def initStorage : Storage :=
  [(.meta "format", .data []), (.meta "repo", .data [])]

/-- A freshly initialised repository over `initStorage`. -/
def initRepo (maxBlockSize : Nat) (maxPackedContentLength : Int) : Repository :=
  ⟨maxBlockSize, maxPackedContentLength, initStorage, [], [], [], 0, 0⟩

/-- All content-addresses mentioned by a list of index blocks. -/
def allIndexAddrs (blocks : List (BlockKey × IndexBlock)) : List String :=
  (blocks.flatMap (fun p => p.2.items.map Prod.fst)).dedup

/-- The winning entry for one content-address among a list of index
blocks. -/
def pickBestFor (addr : String) (blocks : List (BlockKey × IndexBlock)) :
    Option BlockIndexEntry :=
  (pickBest (entriesFor addr blocks)).map (fun t => t.2.2)

/-- The merge of a set of index blocks: for each content-address appearing
across them, the newest entry wins (tiebreak on the carrying key). -/
def mergedItems (blocks : List (BlockKey × IndexBlock)) : List (String × BlockIndexEntry) :=
  (allIndexAddrs blocks).filterMap (fun a => (pickBestFor a blocks).map (fun e => (a, e)))

/-- Whether a stored blob is a pack index older than the cutoff. -/
def isCompactable (cutoff : Nat) (p : BlockKey × Blob) : Bool :=
  match p.2 with
  | .index ib => decide (ib.createTime < cutoff)
  | .data _ => false

/-- `CompactIndexes(cutoff)`: indexes created before the cutoff are merged
(newest entry per content-address wins) into a single new index block
written under a fresh `P` key, and the merged sources are deleted; indexes
dated at or after the cutoff are retained untouched.  With no compactable
index the operation is a no-op. -/
def compactIndexes (cutoff : Nat) (newKey : Nat) (now : Nat) (st : Storage) : Storage :=
  let compactable := (indexBlocksOf st).filter (fun p => decide (p.2.createTime < cutoff))
  if compactable.isEmpty then st
  else
    putBlob (st.filter (fun p => !isCompactable cutoff p)) (.packIndex newKey)
      (.index ⟨now, mergedItems compactable⟩)

/-- Re-open a repository over persisted storage: the in-memory index is
rebuilt from all pack-index blocks (newest entry per content-address
wins); nothing is pending; fresh keys continue above every key present. -/
def openRepo (st : Storage) (maxBlockSize : Nat) (maxPackedContentLength : Int) : Repository :=
  let counter := 1 + st.foldl (fun m p =>
    match p.1 with
    | .pack n => max m n
    | .packIndex n => max m n
    | _ => m) 0
  let clock := 1 + (indexBlocksOf st).foldl (fun m p => max m p.2.createTime) 0
  ⟨maxBlockSize, maxPackedContentLength, st,
    (allIndexAddrs (indexBlocksOf st)).filterMap
      (fun a => (lookupLive st a).map (fun e => (a, e))),
    [], [], counter, clock⟩

end Repo

namespace Metadata

/-- A concrete AEAD instance satisfying the `cipher.AEAD` contract (12-byte
nonces, 16-byte tag), used to instantiate theorems that are parametric in
the cipher. -/
def demoAEAD : AEAD :=
  ⟨12, 16,
   fun _ p _ => p ++ List.replicate 16 0,
   fun _ c _ => if 16 ≤ c.length then some (c.take (c.length - 16)) else none⟩

end Metadata

namespace Repo

/-- Write a list of whole contents through fresh object writers. -/
def writeAll (r : Repository) (cs : List Bytes) : Repository :=
  cs.foldl (fun acc c => (writeObjectD acc c).2) r

/-- Write several batches of contents, flushing after each batch. -/
def runPhases (r : Repository) (phases : List (List Bytes)) : Repository :=
  phases.foldl (fun acc cs => flush (writeAll acc cs)) r

/-- First content of the packing scenario. -/
def c5content1 : Bytes := strBytes "hello, how do you do?"

/-- Second content of the packing scenario. -/
def c5content2 : Bytes := strBytes "hi, how are you?"

/-- Third content of the packing scenario. -/
def c5content3 : Bytes := strBytes "thank you!"

/-- The packing scenario (`MaxPackedContentLength = 10000`): three distinct
short contents, the first two written twice before a flush, the third twice
after it followed by re-writes of the first two, then a final flush.
Returns the eight object-ID strings in write order and the final storage
keys. -/
def c5run : List String × List BlockKey :=
  let p1a := writeObjectD (initRepo 200 10000) c5content1
  let p1b := writeObjectD p1a.2 c5content1
  let p2a := writeObjectD p1b.2 c5content2
  let p2b := writeObjectD p2a.2 c5content2
  let r1 := flush p2b.2
  let p3a := writeObjectD r1 c5content3
  let p3b := writeObjectD p3a.2 c5content3
  let p2c := writeObjectD p3b.2 c5content2
  let p1c := writeObjectD p2c.2 c5content1
  let r2 := flush p1c.2
  ([p1a.1.StorageBlock, p1b.1.StorageBlock, p2a.1.StorageBlock, p2b.1.StorageBlock,
    p3a.1.StorageBlock, p3b.1.StorageBlock, p2c.1.StorageBlock, p1c.1.StorageBlock],
   r2.storage.map Prod.fst)

/-- The consistency invariant a repository maintains while objects are
written and flushed.  `written` is the list of contents written so far. -/
structure Inv (r : Repository) (written : List Bytes) : Prop where
  /-- Storage keys are pairwise distinct. -/
  nodupKeys : (r.storage.map Prod.fst).Nodup
  /-- Pack and pack-index keys at or above the counter are unused. -/
  keyBound : ∀ n, r.packCounter ≤ n →
    BlockKey.pack n ∉ r.storage.map Prod.fst ∧
    BlockKey.packIndex n ∉ r.storage.map Prod.fst
  /-- Every content-address has at most one entry across all persisted
  pack indexes. -/
  uniqueEntries : ∀ addr, (entriesFor addr (indexBlocksOf r.storage)).length ≤ 1
  /-- The in-memory index covers every address with a persisted entry. -/
  memCoversStorage : ∀ addr, entriesFor addr (indexBlocksOf r.storage) ≠ [] →
    (r.memIndex.lookup addr).isSome
  /-- The in-memory index covers every address awaiting an index write. -/
  memCoversPendingIdx : ∀ addr, (r.pendingIndexItems.lookup addr).isSome →
    (r.memIndex.lookup addr).isSome
  /-- The in-memory index covers every content-address-keyed data block. -/
  memCoversContentKeys : ∀ addr, BlockKey.content addr ∈ r.storage.map Prod.fst →
    (r.memIndex.lookup addr).isSome
  /-- The current pack group holds pairwise distinct addresses. -/
  pendingPackNodup : (r.pendingPackBlocks.map Prod.fst).Nodup
  /-- The pending standalone index entries hold pairwise distinct
  addresses. -/
  pendingIdxNodup : (r.pendingIndexItems.map Prod.fst).Nodup
  /-- The pack group and the pending standalone entries are disjoint. -/
  pendingDisjoint : ∀ addr, (r.pendingPackBlocks.lookup addr).isSome →
    (r.pendingIndexItems.lookup addr).isSome → False
  /-- Addresses in the pack group are not yet in the in-memory index. -/
  pendingPackFresh : ∀ addr, (r.pendingPackBlocks.lookup addr).isSome →
    r.memIndex.lookup addr = none
  /-- Addresses awaiting an index write have no persisted entry yet. -/
  pendingIdxNoEntries : ∀ addr, (r.pendingIndexItems.lookup addr).isSome →
    entriesFor addr (indexBlocksOf r.storage) = []
  /-- A pending standalone entry points at the whole data block stored
  under its own content-address. -/
  pendingIdxShape : ∀ addr e, r.pendingIndexItems.lookup addr = some e →
    e.packBlockID = .content addr ∧ e.offset = 0 ∧
    ∃ b : Bytes, r.storage.lookup (.content addr) = some (.data b) ∧ e.length = b.length
  /-- Every known address is the content-address of some written
  content. -/
  domain : ∀ addr, (r.memIndex.lookup addr).isSome ∨
      (r.pendingPackBlocks.lookup addr).isSome →
    ∃ c ∈ written, md5Hex c = addr
  /-- Every written content either reads back from persisted storage or
  still sits in the current pack group. -/
  reads : ∀ c ∈ written, readBlock r.storage (md5Hex c) = .ok c ∨
    (md5Hex c, c) ∈ r.pendingPackBlocks

end Repo

set_option maxRecDepth 1000000

namespace Metadata

/-- Updating a key and looking it up yields the new value. -/
theorem lookup_putBlock_self (st : Store) (id : String) (b : Bytes) :
    (putBlock st id b).lookup id = some b := by
  induction st with
  | nil => simp [putBlock, List.lookup]
  | cons p rest ih =>
    obtain ⟨k, v⟩ := p
    by_cases h : k = id
    · simp [putBlock, h, List.lookup]
    · have hbk : (id == k) = false := beq_eq_false_iff_ne.mpr (Ne.symm h)
      simp [putBlock, h, List.lookup, hbk, ih]

/-- Updating one key leaves lookups of other keys unchanged. -/
theorem lookup_putBlock_ne (st : Store) (id id' : String) (b : Bytes) (h : id' ≠ id) :
    (putBlock st id b).lookup id' = st.lookup id' := by
  have hbid : (id' == id) = false := beq_eq_false_iff_ne.mpr h
  induction st with
  | nil => simp [putBlock, List.lookup, hbid]
  | cons p rest ih =>
    obtain ⟨k, v⟩ := p
    by_cases hk : k = id
    · subst hk
      simp [putBlock, List.lookup, hbid]
    · simp only [putBlock, if_neg hk]
      by_cases hk' : id' = k
      · simp [List.lookup, hk']
      · have hbk : (id' == k) = false := beq_eq_false_iff_ne.mpr hk'
        simp [List.lookup, hbk, ih]

end Metadata

/-- C1.  The claim says `MultiGet` omits absent items from the result map
without erroring.  The code (lines 160-171) treats the `ErrNotFound`
produced for an absent item like any other per-item error and returns it —
contradicting both the claim and `MultiGet`'s own doc comment ("items that
are not found not present in the map").  Evaluated at a store holding
`present` but not `missing`: the whole call errors instead of returning the
one-entry map. -/
theorem Metadata.multiGet_absent_item_is_error :
    (Metadata.Manager.mk none []).MultiGet [("present", [1])] ["present", "missing"]
      = .error .errNotFound := by
  decide

/-- C2 counterexample.  The claim says every name-taking operation,
`PutJSON` included, rejects the reserved name `format` with an
InvalidArgument error and leaves the store unchanged.  `PutJSON` (line 187)
calls `writeEncryptedBlock` without `checkReservedName`: at the concrete
input it succeeds and writes the item. -/
theorem Metadata.putJSON_reserved_counterexample :
    ((Metadata.Manager.mk none []).PutJSON [] (fun b => some b) [] "format" ([7] : Bytes)).1
        ≠ .error (.invalidArgument "format") ∧
    ((Metadata.Manager.mk none []).PutJSON [] (fun b => some b) [] "format" ([7] : Bytes)).2
        ≠ ([] : Metadata.Store) := by
  decide

/-- C2 as amended.  `Put`, `GetMetadata`, `Remove` — and through `Remove`
every item of `RemoveMany` — reject the reserved names `format` and `repo`
with an InvalidArgument error and leave the store unchanged; `GetJSON` and
`PutJSON` perform no reserved-name check (`PutJSON` writes the reserved
item, `GetJSON` reads it back). -/
theorem Metadata.reserved_name_checks (mm : Metadata.Manager) (nonce j ad : Bytes)
    (st : Metadata.Store) (name : String)
    (hres : name = "format" ∨ name = "repo") :
    (mm.Put nonce st name j).1 = .error (.invalidArgument name) ∧
    (mm.Put nonce st name j).2 = st ∧
    mm.GetMetadata st name = .error (.invalidArgument name) ∧
    (mm.Remove st name).1 = .error (.invalidArgument name) ∧
    (mm.Remove st name).2 = st ∧
    (mm.RemoveMany st [name]).1 = .error (.invalidArgument name) ∧
    (mm.RemoveMany st [name]).2 = st ∧
    (Metadata.Manager.mk none ad).PutJSON nonce (fun b => some b) st name j
      = (.ok (), Metadata.putBlock st name j) ∧
    (Metadata.Manager.mk none ad).GetJSON (fun b => some b)
      (Metadata.putBlock st name j) name = .ok j := by
  have hr : Metadata.isReservedName name = true := by
    rcases hres with h | h <;> simp [Metadata.isReservedName, h]
  refine ⟨?_, ?_, ?_, ?_, ?_, ?_, ?_, ?_, ?_⟩
  · simp [Metadata.Manager.Put, Metadata.checkReservedName, hr]
  · simp [Metadata.Manager.Put, Metadata.checkReservedName, hr]
  · simp [Metadata.Manager.GetMetadata, Metadata.checkReservedName, hr]
  · simp [Metadata.Manager.Remove, Metadata.checkReservedName, hr]
  · simp [Metadata.Manager.Remove, Metadata.checkReservedName, hr]
  · simp [Metadata.Manager.RemoveMany, Metadata.removeManyLoop,
      Metadata.Manager.Remove, Metadata.checkReservedName, hr]
  · simp [Metadata.Manager.RemoveMany, Metadata.removeManyLoop,
      Metadata.Manager.Remove, Metadata.checkReservedName, hr]
  · simp [Metadata.Manager.PutJSON, Metadata.Manager.writeEncryptedBlock]
  · simp [Metadata.Manager.GetJSON, Metadata.Manager.readEncryptedBlock,
      Metadata.getBlock, Metadata.lookup_putBlock_self, Metadata.Manager.decryptBlock]

/-- Witness for the amended C2 at the concrete reserved name `format`. -/
theorem Metadata.reserved_name_checks_witness :
    ("format" = "format" ∨ "format" = "repo") ∧
    (((Metadata.Manager.mk none []).Put [] [] "format" [7]).1
      = .error (.invalidArgument "format")) := by
  refine ⟨Or.inl rfl, ?_⟩
  exact (Metadata.reserved_name_checks (Metadata.Manager.mk none []) [] [7] [] [] "format"
    (Or.inl rfl)).1

/-- C3.  For any AEAD satisfying the `cipher.AEAD` contract at the given
nonce/plaintext (round-trip and `len(Seal) = len(plaintext) + Overhead`)
with the GCM nonce size 12, and any non-reserved item name: under
`AES256_GCM` the stored blob is exactly `nonce ++ Seal(nonce, content,
authData)` — the 12-byte nonce prepended to the ciphertext-plus-tag, of
total length `12 + len(content) + Overhead` — and `GetMetadata` after `Put`
returns the original bytes; under `NONE` the plaintext is stored as-is and
also round-trips. -/
theorem Metadata.put_get_roundtrip (a : Metadata.AEAD) (ad : Bytes)
    (st : Metadata.Store) (itemID : String) (content nonce : Bytes)
    (hres : Metadata.isReservedName itemID = false)
    (hnl : nonce.length = a.NonceSize)
    (hnsz : a.NonceSize = 12)
    (hseal : (a.Seal nonce content ad).length = content.length + a.Overhead)
    (hopen : a.Open nonce (a.Seal nonce content ad) ad = some content) :
    (((Metadata.Manager.mk (some a) ad).Put nonce st itemID content).1 = .ok () ∧
     ((Metadata.Manager.mk (some a) ad).Put nonce st itemID content).2.lookup itemID
        = some (nonce ++ a.Seal nonce content ad) ∧
     (nonce ++ a.Seal nonce content ad).length = 12 + content.length + a.Overhead ∧
     (Metadata.Manager.mk (some a) ad).GetMetadata
        (((Metadata.Manager.mk (some a) ad).Put nonce st itemID content).2) itemID
        = .ok content) ∧
    (((Metadata.Manager.mk none ad).Put nonce st itemID content).1 = .ok () ∧
     ((Metadata.Manager.mk none ad).Put nonce st itemID content).2.lookup itemID
        = some content ∧
     (Metadata.Manager.mk none ad).GetMetadata
        (((Metadata.Manager.mk none ad).Put nonce st itemID content).2) itemID
        = .ok content) := by
  have hcheck : Metadata.checkReservedName itemID = none := by
    simp [Metadata.checkReservedName, hres]
  have hblob : (nonce ++ a.Seal nonce content ad).length
      = a.NonceSize + (content.length + a.Overhead) := by
    simp [List.length_append, hnl, hseal]
  refine ⟨⟨?_, ?_, ?_, ?_⟩, ⟨?_, ?_, ?_⟩⟩
  · simp [Metadata.Manager.Put, hcheck, Metadata.Manager.writeEncryptedBlock]
  · simp [Metadata.Manager.Put, hcheck, Metadata.Manager.writeEncryptedBlock,
      Metadata.lookup_putBlock_self]
  · omega
  · simp only [Metadata.Manager.Put, hcheck, Metadata.Manager.writeEncryptedBlock,
      Metadata.Manager.GetMetadata, Metadata.Manager.readEncryptedBlock,
      Metadata.getBlock, Metadata.lookup_putBlock_self]
    have hnotshort : ¬ (nonce ++ a.Seal nonce content ad).length < a.NonceSize := by
      omega
    have htake : (nonce ++ a.Seal nonce content ad).take a.NonceSize = nonce := by
      rw [← hnl]
      exact List.take_left nonce (a.Seal nonce content ad)
    have hdrop : (nonce ++ a.Seal nonce content ad).drop a.NonceSize
        = a.Seal nonce content ad := by
      rw [← hnl]
      exact List.drop_left nonce (a.Seal nonce content ad)
    simp only [Metadata.Manager.decryptBlock, if_neg hnotshort]
    simp [htake, hdrop, hopen]
  · simp [Metadata.Manager.Put, hcheck, Metadata.Manager.writeEncryptedBlock]
  · simp [Metadata.Manager.Put, hcheck, Metadata.Manager.writeEncryptedBlock,
      Metadata.lookup_putBlock_self]
  · simp [Metadata.Manager.Put, hcheck, Metadata.Manager.writeEncryptedBlock,
      Metadata.Manager.GetMetadata, Metadata.Manager.readEncryptedBlock,
      Metadata.getBlock, Metadata.lookup_putBlock_self, Metadata.Manager.decryptBlock]

/-- Witness for C3 at the demo AEAD, item `x`, content `[1,2,3]` and an
all-zero 12-byte nonce. -/
theorem Metadata.put_get_roundtrip_witness :
    Metadata.isReservedName "x" = false ∧
    (Metadata.Manager.mk (some Metadata.demoAEAD) []).GetMetadata
        (((Metadata.Manager.mk (some Metadata.demoAEAD) []).Put
            (List.replicate 12 0) [] "x" [1, 2, 3]).2) "x" = .ok [1, 2, 3] := by
  refine ⟨by decide, ?_⟩
  exact (Metadata.put_get_roundtrip Metadata.demoAEAD [] [] "x" [1, 2, 3]
    (List.replicate 12 0) (by decide) (by decide) (by decide) (by decide)
    (by decide)).1.2.2.2

/-- C10.  Under `AES256_GCM` (nonce size 12), a stored blob shorter than
the nonce makes `GetMetadata` panic: `decryptBlock` slices
`content[0:NonceSize]` without a length check, so the read path is not
total on short blobs — it panics instead of returning a malformed-data
error. -/
theorem Metadata.short_blob_read_panics (a : Metadata.AEAD) (ad blob : Bytes)
    (st : Metadata.Store) (name : String)
    (hres : Metadata.isReservedName name = false)
    (hnsz : a.NonceSize = 12)
    (hshort : blob.length < 12)
    (hstored : st.lookup name = some blob) :
    (Metadata.Manager.mk (some a) ad).GetMetadata st name = .panic := by
  have hcheck : Metadata.checkReservedName name = none := by
    simp [Metadata.checkReservedName, hres]
  have h : blob.length < a.NonceSize := by omega
  simp [Metadata.Manager.GetMetadata, hcheck, Metadata.Manager.readEncryptedBlock,
    Metadata.getBlock, hstored, Metadata.Manager.decryptBlock, h]

/-- Witness for C10: the empty blob stored under `x`. -/
theorem Metadata.short_blob_read_panics_witness :
    ([("x", ([] : Bytes))].lookup "x" = some ([] : Bytes)) ∧
    (Metadata.Manager.mk (some Metadata.demoAEAD) []).GetMetadata [("x", [])] "x"
      = .panic := by
  refine ⟨by decide, ?_⟩
  exact Metadata.short_blob_read_panics Metadata.demoAEAD [] [] [("x", [])] "x"
    (by decide) (by decide) (by decide) (by decide)

/-- C4.  When storage reports a block absent: the object layer's `Open`
surfaces `storage.ErrBlockNotFound` unchanged and returns no reader, while
the metadata manager's `GetMetadata` on a non-reserved absent name remaps
it to the domain error `ErrNotFound`. -/
theorem Repo.block_not_found_surfacing (st : Repo.Storage) (addr : String)
    (hlive : Repo.lookupLive st addr = none)
    (habs : st.lookup (Repo.BlockKey.content addr) = none)
    (mm : Metadata.Manager) (mst : Metadata.Store) (name : String)
    (hres : Metadata.isReservedName name = false)
    (hmabs : mst.lookup name = none) :
    Repo.openObject st ⟨addr⟩ = .error (.storage .errBlockNotFound) ∧
    mm.GetMetadata mst name = .error .errNotFound := by
  constructor
  · simp [Repo.openObject, Repo.readBlock, hlive, habs]
  · simp [Metadata.Manager.GetMetadata, Metadata.checkReservedName, hres,
      Metadata.Manager.readEncryptedBlock, Metadata.getBlock, hmabs]

/-- Witness for C4: `Open` of the parsed ID `Dno-such-block` on a freshly
initialised repository, and `GetMetadata` of the absent item `a` on an
empty store. -/
theorem Repo.block_not_found_surfacing_witness :
    Repo.ParseID "Dno-such-block" = some ⟨"no-such-block"⟩ ∧
    Repo.openObject Repo.initStorage ⟨"no-such-block"⟩
      = .error (.storage .errBlockNotFound) ∧
    (Metadata.Manager.mk none []).GetMetadata [] "a" = .error .errNotFound := by
  refine ⟨by decide, ?_⟩
  exact Repo.block_not_found_surfacing Repo.initStorage "no-such-block" (by decide)
    (by decide) (Metadata.Manager.mk none []) [] "a" (by decide) (by decide)

/-- C9.  A direct object whose stored block payload was replaced by one
byte shorter or longer than the original — so the payload no longer
matches the declared content-address — makes `Open` return a
malformed-data error, never a successful read. -/
theorem Repo.malformed_block_open_fails (st : Repo.Storage) (addr : String)
    (orig payload : Bytes)
    (horig : md5Hex orig = addr)
    (hlen : payload.length + 1 = orig.length ∨ payload.length = orig.length + 1)
    (hbad : md5Hex payload ≠ addr)
    (hlive : Repo.lookupLive st addr = none)
    (hstored : st.lookup (Repo.BlockKey.content addr) = some (.data payload)) :
    Repo.openObject st ⟨addr⟩ = .error .malformed := by
  have hb : (md5Hex payload == addr) = false := beq_eq_false_iff_ne.mpr hbad
  simp [Repo.openObject, Repo.readBlock, hlive, hstored, hb]

/-- Witness for C9: the stored payload `foo\nbar` (content-address
`a76999788386641a3ec798554f1fe7e6`) replaced by the one-byte-shorter
`foo\nba`. -/
theorem Repo.malformed_block_open_fails_witness :
    md5Hex (strBytes "foo\nbar") = "a76999788386641a3ec798554f1fe7e6" ∧
    Repo.openObject
      (Repo.initStorage ++
        [(.content "a76999788386641a3ec798554f1fe7e6", .data (strBytes "foo\nba"))])
      ⟨"a76999788386641a3ec798554f1fe7e6"⟩ = .error .malformed := by
  refine ⟨by decide, ?_⟩
  exact Repo.malformed_block_open_fails
    (Repo.initStorage ++
      [(.content "a76999788386641a3ec798554f1fe7e6", .data (strBytes "foo\nba"))])
    "a76999788386641a3ec798554f1fe7e6" (strBytes "foo\nbar") (strBytes "foo\nba")
    (by decide) (Or.inl (by decide)) (by decide) (by decide) (by decide)

/-- C7.  With the `FIXED` splitter, `MaxBlockSize = 200`, `TESTONLY_MD5`
and HMAC disabled, writing `"the quick brown fox jumps over the lazy dog"`
yields exactly the direct object ID `D77add1d5f41223d5582fca736a5cb335`,
and after a flush the storage holds exactly 4 keys: the 2 format-related
blocks, 1 data block and 1 pack index. -/
theorem Repo.writers_direct_oid :
    (Repo.writeObject (Repo.initRepo 200 (-1))
        (strBytes "the quick brown fox jumps over the lazy dog")).map
        (fun p => (p.1.text, (Repo.flush p.2).storage.map Prod.fst)) =
      some ("D77add1d5f41223d5582fca736a5cb335",
        [.meta "format", .meta "repo",
         .content "77add1d5f41223d5582fca736a5cb335", .packIndex 0]) := by
  decide

/-- C8.  Under the same configuration, writing 100 zero bytes in one
`Write` call or as two 50-byte `Write` calls on a fresh writer produces
the same object ID, `D6d0bb00954ceb7fbee436bb55a8397a9`. -/
theorem Repo.fragmented_write_same_oid :
    ((((Repo.ObjectWriter.mk []).write (List.replicate 100 0)).result
        (Repo.initRepo 200 (-1))).map (fun p => p.1.text)
      = some "D6d0bb00954ceb7fbee436bb55a8397a9") ∧
    (((((Repo.ObjectWriter.mk []).write (List.replicate 50 0)).write
          (List.replicate 50 0)).result (Repo.initRepo 200 (-1))).map (fun p => p.1.text)
      = some "D6d0bb00954ceb7fbee436bb55a8397a9") := by
  decide

/-- C5.  With packing enabled (`MaxPackedContentLength = 10000`), the
three-content scenario — first two contents written twice before a flush,
then the third twice plus re-writes of the other two, then a final flush —
yields identical object IDs for every pair of writes of identical content,
and the storage ends with exactly 6 keys: the 2 format blocks plus 4
data/pack/index artefacts (one pack file and one pack index per flush). -/
theorem Repo.packing_dedup_and_storage_keys :
    Repo.c5run =
      (["64e44cf9a5eb84d0aa8520f2742c6e41", "64e44cf9a5eb84d0aa8520f2742c6e41",
        "76e79a19a674231c42d3e9aed7d151d7", "76e79a19a674231c42d3e9aed7d151d7",
        "5dd9c84e6be78c0c27246edb8f99e738", "5dd9c84e6be78c0c27246edb8f99e738",
        "76e79a19a674231c42d3e9aed7d151d7", "64e44cf9a5eb84d0aa8520f2742c6e41"],
       [.meta "format", .meta "repo", .pack 0, .packIndex 0, .pack 1, .packIndex 1]) ∧
    Repo.c5run.2.length = 2 + 4 := by
  refine ⟨by decide, by decide⟩

namespace Repo

/-- Looking up a key bound in the left part of an append. -/
theorem lookup_append_some {κ β : Type} [BEq κ] (l1 l2 : List (κ × β)) (a : κ) (v : β)
    (h : l1.lookup a = some v) : (l1 ++ l2).lookup a = some v := by
  induction l1 with
  | nil => simp [List.lookup] at h
  | cons p rest ih =>
    obtain ⟨k, w⟩ := p
    cases hbk : (a == k) with
    | true =>
      simp [List.lookup, hbk] at h
      simp [List.lookup, hbk, h]
    | false =>
      simp only [List.lookup, hbk] at h
      simpa [List.lookup, hbk] using ih h

/-- Looking up a key absent from the left part of an append. -/
theorem lookup_append_none {κ β : Type} [BEq κ] (l1 l2 : List (κ × β)) (a : κ)
    (h : l1.lookup a = none) : (l1 ++ l2).lookup a = l2.lookup a := by
  induction l1 with
  | nil => simp
  | cons p rest ih =>
    obtain ⟨k, w⟩ := p
    cases hbk : (a == k) with
    | true => simp [List.lookup, hbk] at h
    | false =>
      simp only [List.lookup, hbk] at h
      simpa [List.lookup, hbk] using ih h

/-- A lookup succeeds exactly when the key occurs in the map. -/
theorem lookup_isSome_iff_mem {κ β : Type} [BEq κ] [LawfulBEq κ]
    (l : List (κ × β)) (a : κ) :
    (l.lookup a).isSome ↔ a ∈ l.map Prod.fst := by
  induction l with
  | nil => simp [List.lookup]
  | cons p rest ih =>
    obtain ⟨k, v⟩ := p
    by_cases h : a = k
    · simp [List.lookup, h]
    · have hb : (a == k) = false := beq_eq_false_iff_ne.mpr h
      simp [List.lookup, hb, ih, h]

/-- A lookup fails exactly when the key is absent from the map. -/
theorem lookup_eq_none_iff_not_mem {κ β : Type} [BEq κ] [LawfulBEq κ]
    (l : List (κ × β)) (a : κ) :
    l.lookup a = none ↔ a ∉ l.map Prod.fst := by
  rw [← lookup_isSome_iff_mem]
  cases l.lookup a <;> simp

/-- Updating a fresh key is an append. -/
theorem putBlob_fresh (st : Storage) (k : BlockKey) (v : Blob)
    (h : k ∉ st.map Prod.fst) : putBlob st k v = st ++ [(k, v)] := by
  induction st with
  | nil => rfl
  | cons p rest ih =>
    obtain ⟨k', v'⟩ := p
    simp only [List.map, List.mem_cons, not_or] at h
    simp [putBlob, Ne.symm h.1, ih h.2]

/-- Filtering keeps a binding that satisfies the predicate. -/
theorem lookup_filter_some {κ β : Type} [BEq κ] [LawfulBEq κ]
    (p : κ × β → Bool) (l : List (κ × β)) (a : κ) (v : β)
    (h : l.lookup a = some v) (hp : p (a, v) = true) :
    (l.filter p).lookup a = some v := by
  induction l with
  | nil => simp [List.lookup] at h
  | cons q rest ih =>
    obtain ⟨k, w⟩ := q
    cases hbk : (a == k) with
    | true =>
      have hak : a = k := eq_of_beq hbk
      simp only [List.lookup, hbk] at h
      obtain rfl : w = v := by simpa using h
      subst hak
      simp [List.filter, hp, List.lookup]
    | false =>
      simp only [List.lookup, hbk] at h
      cases hq : p (k, w) with
      | true => simpa [List.filter, hq, List.lookup, hbk] using ih h
      | false => simpa [List.filter, hq] using ih h

/-- Appending a data blob adds no index block. -/
theorem indexBlocksOf_append_data (st : Storage) (k : BlockKey) (b : Bytes) :
    indexBlocksOf (st ++ [(k, .data b)]) = indexBlocksOf st := by
  simp [indexBlocksOf, List.filterMap_append]

/-- Appending an index blob appends the index block. -/
theorem indexBlocksOf_append_index (st : Storage) (k : BlockKey) (ib : IndexBlock) :
    indexBlocksOf (st ++ [(k, .index ib)]) = indexBlocksOf st ++ [(k, ib)] := by
  simp [indexBlocksOf, List.filterMap_append]

/-- Entries distribute over appended block lists. -/
theorem entriesFor_append (a : String) (bs1 bs2 : List (BlockKey × IndexBlock)) :
    entriesFor a (bs1 ++ bs2) = entriesFor a bs1 ++ entriesFor a bs2 := by
  simp [entriesFor, List.filterMap_append]

/-- Entries of a single block whose items miss the address. -/
theorem entriesFor_single_none (a : String) (k : BlockKey) (ib : IndexBlock)
    (h : ib.items.lookup a = none) : entriesFor a [(k, ib)] = [] := by
  simp [entriesFor, h]

/-- Entries of a single block whose items hold the address. -/
theorem entriesFor_single_some (a : String) (k : BlockKey) (ib : IndexBlock)
    (e : BlockIndexEntry) (h : ib.items.lookup a = some e) :
    entriesFor a [(k, ib)] = [(ib.createTime, k, e)] := by
  simp [entriesFor, h]

/-- `pickBest` yields nothing only on the empty candidate list. -/
theorem pickBest_eq_none_iff (l : List (Nat × BlockKey × BlockIndexEntry)) :
    pickBest l = none ↔ l = [] := by
  cases l with
  | nil => simp [pickBest]
  | cons x xs =>
    simp only [pickBest]
    cases pickBest xs with
    | none => simp
    | some a =>
      by_cases h : newer x a = true <;> simp [h]

end Repo

namespace Repo

/-- Lookup in a keyed `filterMap` over distinct keys. -/
theorem lookup_filterMap_keyed (ks : List String) (g : String → Option BlockIndexEntry)
    (a : String) (hnd : ks.Nodup) :
    (ks.filterMap (fun k => (g k).map (fun e => (k, e)))).lookup a
      = if a ∈ ks then g a else none := by
  induction ks with
  | nil => simp [List.lookup]
  | cons k ks ih =>
    have hks : ks.Nodup := hnd.of_cons
    cases hgk : g k with
    | none =>
      by_cases ha : a = k
      · subst ha
        have hnotin : a ∉ ks := by
          intro hmem
          exact (List.nodup_cons.mp hnd).1 hmem
        simp [List.filterMap_cons, hgk, ih hks, hnotin]
      · simp [List.filterMap_cons, hgk, ih hks, ha]
    | some e =>
      by_cases ha : a = k
      · subst ha
        simp [List.filterMap_cons, hgk, List.lookup]
      · have hb : (a == k) = false := beq_eq_false_iff_ne.mpr ha
        simp [List.filterMap_cons, hgk, List.lookup, hb, ih hks, ha]

/-- An address has entries among some blocks exactly when it is listed. -/
theorem mem_allIndexAddrs_iff (a : String) (blocks : List (BlockKey × IndexBlock)) :
    a ∈ allIndexAddrs blocks ↔ entriesFor a blocks ≠ [] := by
  unfold allIndexAddrs entriesFor
  rw [List.mem_dedup, List.mem_flatMap]
  constructor
  · rintro ⟨p, hp, hmem⟩
    have hsome : (p.2.items.lookup a).isSome :=
      (lookup_isSome_iff_mem p.2.items a).mpr hmem
    intro hnil
    rw [List.filterMap_eq_nil_iff] at hnil
    have h2 := hnil p hp
    cases hl : p.2.items.lookup a with
    | none =>
      rw [hl] at hsome
      simp at hsome
    | some e =>
      rw [hl] at h2
      simp at h2
  · intro hne
    by_contra hnotmem
    push_neg at hnotmem
    apply hne
    rw [List.filterMap_eq_nil_iff]
    intro p hp
    have hmem : a ∉ p.2.items.map Prod.fst := hnotmem p hp
    have hnone : p.2.items.lookup a = none :=
      (lookup_eq_none_iff_not_mem _ _).mpr hmem
    simp [hnone]

/-- The merged index binds every address to its winning entry. -/
theorem mergedItems_lookup (blocks : List (BlockKey × IndexBlock)) (a : String) :
    (mergedItems blocks).lookup a = pickBestFor a blocks := by
  have hnd : (allIndexAddrs blocks).Nodup := by
    unfold allIndexAddrs
    exact List.nodup_dedup _
  unfold mergedItems
  rw [lookup_filterMap_keyed (allIndexAddrs blocks) (fun k => pickBestFor k blocks) a hnd]
  by_cases h : a ∈ allIndexAddrs blocks
  · simp [h]
  · have hnil : entriesFor a blocks = [] := by
      by_contra hne
      exact h ((mem_allIndexAddrs_iff a blocks).mpr hne)
    simp [h, pickBestFor, hnil, pickBest]

end Repo

namespace Repo

/-- Filtering storage down to non-compactable blobs filters its index-block
list by creation time. -/
theorem indexBlocksOf_filter (cutoff : Nat) (st : Storage) :
    indexBlocksOf (st.filter (fun p => !isCompactable cutoff p))
      = (indexBlocksOf st).filter (fun q => !decide (q.2.createTime < cutoff)) := by
  induction st with
  | nil => rfl
  | cons p rest ih =>
    obtain ⟨k, blob⟩ := p
    cases blob with
    | data b =>
      simpa [indexBlocksOf, isCompactable, List.filter_cons, List.filterMap_cons] using ih
    | index ib =>
      by_cases h : ib.createTime < cutoff
      · simpa [indexBlocksOf, isCompactable, List.filter_cons, List.filterMap_cons, h] using ih
      · simpa [indexBlocksOf, isCompactable, List.filter_cons, List.filterMap_cons, h] using ih

/-- The entries of an address split (up to permutation) between the blocks
kept and the blocks dropped by a filter. -/
theorem entriesFor_filter_split (a : String) (blocks : List (BlockKey × IndexBlock))
    (p : BlockKey × IndexBlock → Bool) :
    (entriesFor a (blocks.filter p) ++ entriesFor a (blocks.filter (fun q => !p q))).Perm
      (entriesFor a blocks) := by
  have hperm := List.filter_append_perm p blocks
  have h2 := hperm.filterMap
    (fun q => (q.2.items.lookup a).map (fun e => (q.2.createTime, q.1, e)))
  simpa [entriesFor, List.filterMap_append] using h2

/-- Compacting indexes preserves every successful block read: the merged
index keeps the winning entry of every live content-address, data blobs are
untouched, and the merged indexes are removed only after their entries are
covered. -/
theorem readBlock_compact (st : Storage) (cutoff newKey now : Nat) (addr : String) (c : Bytes)
    (hfresh : BlockKey.packIndex newKey ∉ st.map Prod.fst)
    (huniq : ∀ a, (entriesFor a (indexBlocksOf st)).length ≤ 1)
    (hread : readBlock st addr = .ok c) :
    readBlock (compactIndexes cutoff newKey now st) addr = .ok c := by
  unfold compactIndexes
  by_cases hemp : ((indexBlocksOf st).filter
      (fun p => decide (p.2.createTime < cutoff))).isEmpty = true
  · simpa [hemp] using hread
  · rw [if_neg hemp]
    set compactable := (indexBlocksOf st).filter
      (fun p => decide (p.2.createTime < cutoff)) with hCdef
    set retained := (indexBlocksOf st).filter
      (fun q => !decide (q.2.createTime < cutoff)) with hRdef
    set merged : IndexBlock := ⟨now, mergedItems compactable⟩ with hMdef
    set stF := st.filter (fun p => !isCompactable cutoff p) with hFdef
    have hsub : BlockKey.packIndex newKey ∉ stF.map Prod.fst := by
      intro hmem
      apply hfresh
      rw [List.mem_map] at hmem ⊢
      obtain ⟨q, hq, hqe⟩ := hmem
      exact ⟨q, List.mem_of_mem_filter hq, hqe⟩
    rw [putBlob_fresh stF (.packIndex newKey) (.index merged) hsub]
    have hIdx : indexBlocksOf (stF ++ [(BlockKey.packIndex newKey, Blob.index merged)])
        = retained ++ [(BlockKey.packIndex newKey, merged)] := by
      rw [indexBlocksOf_append_index, hFdef, indexBlocksOf_filter, hRdef]
    have hdata : ∀ (k : BlockKey) (b : Bytes), st.lookup k = some (.data b) →
        (stF ++ [(BlockKey.packIndex newKey, Blob.index merged)]).lookup k
          = some (.data b) := by
      intro k b hk
      apply lookup_append_some
      rw [hFdef]
      exact lookup_filter_some _ st k (.data b) hk (by simp [isCompactable])
    have hsplit := entriesFor_filter_split addr (indexBlocksOf st)
      (fun p => decide (p.2.createTime < cutoff))
    rw [← hCdef, ← hRdef] at hsplit
    -- the entries of `addr` in the compacted storage
    have hE : entriesFor addr (indexBlocksOf
        (stF ++ [(BlockKey.packIndex newKey, Blob.index merged)]))
        = entriesFor addr retained ++ (match (mergedItems compactable).lookup addr with
          | some e => [(now, BlockKey.packIndex newKey, e)]
          | none => []) := by
      rw [hIdx, entriesFor_append]
      congr 1
      cases hml : (mergedItems compactable).lookup addr with
      | none => exact entriesFor_single_none addr _ merged hml
      | some e => exact entriesFor_single_some addr _ merged e hml
    rw [mergedItems_lookup] at hE
    unfold readBlock at hread ⊢
    cases hl : lookupLive st addr with
    | some e =>
      rw [hl] at hread
      dsimp only at hread
      -- the unique entry for `addr`
      have hne : entriesFor addr (indexBlocksOf st) ≠ [] := by
        intro hnil
        unfold lookupLive at hl
        rw [hnil] at hl
        simp [pickBest] at hl
      have hlen1 : (entriesFor addr (indexBlocksOf st)).length = 1 := by
        have h1 := huniq addr
        have h2 : 0 < (entriesFor addr (indexBlocksOf st)).length :=
          List.length_pos.mpr hne
        omega
      obtain ⟨x, hx⟩ := List.length_eq_one.mp hlen1
      have hxe : e = x.2.2 := by
        unfold lookupLive at hl
        rw [hx] at hl
        simp [pickBest] at hl
        exact hl.symm
      have hsing : entriesFor addr compactable ++ entriesFor addr retained = [x] := by
        rw [hx] at hsplit
        exact List.perm_singleton.mp hsplit
      have hlive' : lookupLive (stF ++ [(BlockKey.packIndex newKey, Blob.index merged)]) addr
          = some e := by
        unfold lookupLive
        cases hEc : entriesFor addr compactable with
        | nil =>
          have hEr : entriesFor addr retained = [x] := by
            rw [hEc] at hsing
            simpa using hsing
          have hpb : pickBestFor addr compactable = none := by
            simp [pickBestFor, hEc, pickBest]
          rw [hE, hpb, hEr]
          simp [pickBest, hxe]
        | cons y ys =>
          rw [hEc] at hsing
          have hyx : y = x := by
            have := hsing
            simp at this
            exact this.1
          have hys : ys = [] := by
            have := hsing
            simp at this
            exact this.2.1
          have hEr : entriesFor addr retained = [] := by
            have := hsing
            simp at this
            exact this.2.2
          have hpb : pickBestFor addr compactable = some x.2.2 := by
            simp [pickBestFor, hEc, hyx, hys, pickBest]
          rw [hE, hpb, hEr]
          simp [pickBest, hxe]
      cases hpb2 : st.lookup e.packBlockID with
      | none =>
        rw [hpb2] at hread
        simp at hread
      | some blob =>
        cases blob with
        | index ib =>
          rw [hpb2] at hread
          simp at hread
        | data b =>
          rw [hpb2] at hread
          have hc : (b.drop e.offset).take e.length = c := by simpa using hread
          simp only [hlive', hdata e.packBlockID b hpb2, hc]
    | none =>
      rw [hl] at hread
      dsimp only at hread
      have hnil : entriesFor addr (indexBlocksOf st) = [] := by
        unfold lookupLive at hl
        cases hE0 : entriesFor addr (indexBlocksOf st) with
        | nil => rfl
        | cons y ys =>
          rw [hE0] at hl
          cases hpb : pickBest (y :: ys) with
          | none =>
            have := (pickBest_eq_none_iff (y :: ys)).mp hpb
            simp at this
          | some a =>
            rw [hpb] at hl
            simp at hl
      have hboth : entriesFor addr compactable = [] ∧ entriesFor addr retained = [] := by
        rw [hnil] at hsplit
        have h0 : entriesFor addr compactable ++ entriesFor addr retained = [] :=
          List.Perm.eq_nil hsplit
        exact List.append_eq_nil.mp h0
      have hpbF : pickBestFor addr compactable = none := by
        simp [pickBestFor, hboth.1, pickBest]
      have hlive' : lookupLive (stF ++ [(BlockKey.packIndex newKey, Blob.index merged)]) addr
          = none := by
        unfold lookupLive
        rw [hE, hpbF, hboth.2]
        simp [pickBest]
      cases hdl : st.lookup (BlockKey.content addr) with
      | none =>
        rw [hdl] at hread
        simp at hread
      | some blob =>
        cases blob with
        | index ib =>
          rw [hdl] at hread
          simp at hread
        | data b =>
          rw [hdl] at hread
          have hc : b = c := by simpa using hread
          simp only [hlive', hdata _ b hdl, hc]

/-- Lookup over an append succeeds when either part binds the key. -/
theorem lookup_append_isSome {κ β : Type} [BEq κ] (l1 l2 : List (κ × β)) (a : κ) :
    ((l1 ++ l2).lookup a).isSome ↔ (l1.lookup a).isSome ∨ (l2.lookup a).isSome := by
  cases h1 : l1.lookup a with
  | some v => simp [lookup_append_some l1 l2 a v h1]
  | none => simp [lookup_append_none l1 l2 a h1]

/-- A successful read survives any storage change that preserves the live
index resolution and all data-blob lookups. -/
theorem readBlock_preserved (st st' : Storage) (addr : String) (c : Bytes)
    (hLL : lookupLive st' addr = lookupLive st addr)
    (hlook : ∀ (k : BlockKey) (bb : Bytes),
      st.lookup k = some (.data bb) → st'.lookup k = some (.data bb))
    (hread : readBlock st addr = .ok c) : readBlock st' addr = .ok c := by
  unfold readBlock at hread ⊢
  rw [hLL]
  cases hl : lookupLive st addr with
  | some e =>
    rw [hl] at hread
    dsimp only at hread
    cases hpb : st.lookup e.packBlockID with
    | none =>
      rw [hpb] at hread
      simp at hread
    | some blob =>
      cases blob with
      | index ib =>
        rw [hpb] at hread
        simp at hread
      | data bb =>
        rw [hpb] at hread
        simp only [hlook e.packBlockID bb hpb]
        exact hread
  | none =>
    rw [hl] at hread
    dsimp only at hread
    cases hdl : st.lookup (BlockKey.content addr) with
    | none =>
      rw [hdl] at hread
      simp at hread
    | some blob =>
      cases blob with
      | index ib =>
        rw [hdl] at hread
        simp at hread
      | data bb =>
        rw [hdl] at hread
        simp only [hlook _ bb hdl]
        exact hread

/-- A successful read survives appending a data blob. -/
theorem readBlock_append_data (st : Storage) (k : BlockKey) (b : Bytes)
    (addr : String) (c : Bytes) (hread : readBlock st addr = .ok c) :
    readBlock (st ++ [(k, .data b)]) addr = .ok c := by
  apply readBlock_preserved st _ addr c _ _ hread
  · unfold lookupLive
    rw [indexBlocksOf_append_data]
  · intro k' bb h
    exact lookup_append_some st _ k' (.data bb) h

/-- A successful read survives appending an index blob whose items do not
mention the address. -/
theorem readBlock_append_index (st : Storage) (k : BlockKey) (ib : IndexBlock)
    (addr : String) (c : Bytes) (hnone : ib.items.lookup addr = none)
    (hread : readBlock st addr = .ok c) :
    readBlock (st ++ [(k, .index ib)]) addr = .ok c := by
  apply readBlock_preserved st _ addr c _ _ hread
  · unfold lookupLive
    rw [indexBlocksOf_append_index, entriesFor_append,
      entriesFor_single_none addr k ib hnone, List.append_nil]
  · intro k' bb h
    exact lookup_append_some st _ k' (.data bb) h

/-- Pack-group index entries keep the group's addresses. -/
theorem packEntries_keys (pk : BlockKey) (pend : List (String × Bytes)) :
    ∀ off, (packEntries pk off pend).map Prod.fst = pend.map Prod.fst := by
  induction pend with
  | nil => intro off; rfl
  | cons q rest ih =>
    intro off
    obtain ⟨a0, c0⟩ := q
    simp [packEntries, ih]

/-- Every member of a pack group with distinct addresses gets an index
entry whose slice of the concatenated buffer is its own content. -/
theorem packEntries_lookup_slice (pk : BlockKey) (pend : List (String × Bytes))
    (addr : String) (c : Bytes)
    (hnd : (pend.map Prod.fst).Nodup) (hmem : (addr, c) ∈ pend) :
    ∀ pre : Bytes,
      ∃ off, (packEntries pk pre.length pend).lookup addr
          = some ⟨pk, off, c.length⟩ ∧
        ((pre ++ (pend.map Prod.snd).flatten).drop off).take c.length = c := by
  induction pend with
  | nil => simp at hmem
  | cons q rest ih =>
    obtain ⟨a0, c0⟩ := q
    intro pre
    rcases List.mem_cons.mp hmem with heq | htail
    · obtain ⟨h1, h2⟩ := Prod.mk.injEq .. ▸ heq
      subst h1
      subst h2
      refine ⟨pre.length, ?_, ?_⟩
      · simp [packEntries, List.lookup]
      · have hflat : ((((addr, c) :: rest).map Prod.snd).flatten) =
            c ++ (rest.map Prod.snd).flatten := by simp
        rw [hflat, List.drop_left, List.take_left]
    · have hne : addr ≠ a0 := by
        intro hcontra
        subst hcontra
        have : addr ∈ rest.map Prod.fst := List.mem_map.mpr ⟨(addr, c), htail, rfl⟩
        exact (List.nodup_cons.mp (by simpa using hnd)).1 this
      have hb : (addr == a0) = false := beq_eq_false_iff_ne.mpr hne
      obtain ⟨off, hlk, hsl⟩ := ih (by simpa using (List.nodup_cons.mp (by simpa using hnd)).2)
        htail (pre ++ c0)
      refine ⟨off, ?_, ?_⟩
      · have hlen : (pre ++ c0).length = pre.length + c0.length := by
          simp
        rw [hlen] at hlk
        simpa [packEntries, List.lookup, hb] using hlk
      · have hflat : ((((a0, c0) :: rest).map Prod.snd).flatten) =
            c0 ++ (rest.map Prod.snd).flatten := by simp
        rw [hflat, ← List.append_assoc]
        exact hsl

end Repo

namespace Repo

/-- Lookup in a one-entry map at its own key. -/
theorem lookup_singleton_self {κ β : Type} [BEq κ] [LawfulBEq κ] (k : κ) (v : β) :
    ([(k, v)] : List (κ × β)).lookup k = some v := by
  simp [List.lookup]

/-- Lookup in a one-entry map at another key. -/
theorem lookup_singleton_ne {κ β : Type} [BEq κ] [LawfulBEq κ] (k a : κ) (v : β)
    (h : a ≠ k) : ([(k, v)] : List (κ × β)).lookup a = none := by
  simp [List.lookup, beq_eq_false_iff_ne.mpr h]

/-- Lookup in a one-entry map succeeds only at its key. -/
theorem lookup_singleton_isSome {κ β : Type} [BEq κ] [LawfulBEq κ] (k a : κ) (v : β)
    (h : (([(k, v)] : List (κ × β)).lookup a).isSome) : a = k := by
  by_contra hne
  rw [lookup_singleton_ne k a v hne] at h
  simp at h

/-- `writeBlock` returns the content-address of its argument. -/
theorem writeBlock_fst (r : Repository) (c : Bytes) :
    (writeBlock r c).1 = md5Hex c := by
  unfold writeBlock
  dsimp only
  split
  · rfl
  · split <;> rfl

/-- `writeBlock` preserves the configured block size. -/
theorem writeBlock_maxBlockSize (r : Repository) (c : Bytes) :
    (writeBlock r c).2.maxBlockSize = r.maxBlockSize := by
  unfold writeBlock
  dsimp only
  split
  · rfl
  · split <;> rfl

/-- `writeBlock` preserves the pack-key counter. -/
theorem writeBlock_packCounter (r : Repository) (c : Bytes) :
    (writeBlock r c).2.packCounter = r.packCounter := by
  unfold writeBlock
  dsimp only
  split
  · rfl
  · split <;> rfl

/-- One `writeBlock` step preserves the invariant, the new content now
counting as written.  The per-address injectivity hypothesis rules out a
hash collision with previously written content. -/
theorem inv_writeBlock (r : Repository) (written : List Bytes) (c : Bytes)
    (hInv : Inv r written)
    (hinj : ∀ c' ∈ written, md5Hex c' = md5Hex c → c' = c) :
    Inv (writeBlock r c).2 (written ++ [c]) := by
  unfold writeBlock
  dsimp only
  set addr := md5Hex c with haddr
  by_cases hknown :
      ((r.memIndex.lookup addr).isSome || (r.pendingPackBlocks.lookup addr).isSome) = true
  · rw [if_pos hknown]
    obtain ⟨c0, hc0mem, hc0addr⟩ := hInv.domain addr ((Bool.or_eq_true _ _).mp hknown)
    have hc0 : c0 = c := hinj c0 hc0mem hc0addr
    exact {
      nodupKeys := hInv.nodupKeys
      keyBound := hInv.keyBound
      uniqueEntries := hInv.uniqueEntries
      memCoversStorage := hInv.memCoversStorage
      memCoversPendingIdx := hInv.memCoversPendingIdx
      memCoversContentKeys := hInv.memCoversContentKeys
      pendingPackNodup := hInv.pendingPackNodup
      pendingIdxNodup := hInv.pendingIdxNodup
      pendingDisjoint := hInv.pendingDisjoint
      pendingPackFresh := hInv.pendingPackFresh
      pendingIdxNoEntries := hInv.pendingIdxNoEntries
      pendingIdxShape := hInv.pendingIdxShape
      domain := fun a ha =>
        (hInv.domain a ha).imp (fun c' h => ⟨List.mem_append_left _ h.1, h.2⟩)
      reads := by
        intro c' hc'
        rcases List.mem_append.mp hc' with h | h
        · exact hInv.reads c' h
        · have : c' = c := by simpa using h
          subst this
          have := hInv.reads c0 hc0mem
          rw [hc0] at this
          exact this }
  · rw [if_neg hknown]
    rw [Bool.or_eq_true, not_or] at hknown
    obtain ⟨hmi', hpp'⟩ := hknown
    have hmi : r.memIndex.lookup addr = none := by
      cases h : r.memIndex.lookup addr with
      | none => rfl
      | some v => rw [h] at hmi'; simp at hmi'
    have hpp : r.pendingPackBlocks.lookup addr = none := by
      cases h : r.pendingPackBlocks.lookup addr with
      | none => rfl
      | some v => rw [h] at hpp'; simp at hpp'
    have haddrnotpp : addr ∉ r.pendingPackBlocks.map Prod.fst :=
      (lookup_eq_none_iff_not_mem _ _).mp hpp
    by_cases hpack :
        0 ≤ r.maxPackedContentLength ∧ (c.length : Int) ≤ r.maxPackedContentLength
    · rw [if_pos hpack]
      exact {
        nodupKeys := hInv.nodupKeys
        keyBound := hInv.keyBound
        uniqueEntries := hInv.uniqueEntries
        memCoversStorage := hInv.memCoversStorage
        memCoversPendingIdx := hInv.memCoversPendingIdx
        memCoversContentKeys := hInv.memCoversContentKeys
        pendingPackNodup := by
          rw [List.map_append]
          refine List.Nodup.append hInv.pendingPackNodup (by simp) ?_
          intro a ha hb
          simp at hb
          subst hb
          exact haddrnotpp ha
        pendingIdxNodup := hInv.pendingIdxNodup
        pendingDisjoint := by
          intro a hppn hpii
          rcases (lookup_append_isSome _ _ a).mp hppn with h | h
          · exact hInv.pendingDisjoint a h hpii
          · have ha : a = addr := lookup_singleton_isSome addr a c h
            subst ha
            have hcov := hInv.memCoversPendingIdx addr hpii
            rw [hmi] at hcov
            simp at hcov
        pendingPackFresh := by
          intro a h
          rcases (lookup_append_isSome _ _ a).mp h with h' | h'
          · exact hInv.pendingPackFresh a h'
          · have ha : a = addr := lookup_singleton_isSome addr a c h'
            subst ha
            exact hmi
        pendingIdxNoEntries := hInv.pendingIdxNoEntries
        pendingIdxShape := hInv.pendingIdxShape
        domain := by
          intro a ha
          rcases ha with h | h
          · exact (hInv.domain a (Or.inl h)).imp
              (fun c' hh => ⟨List.mem_append_left _ hh.1, hh.2⟩)
          · rcases (lookup_append_isSome _ _ a).mp h with h' | h'
            · exact (hInv.domain a (Or.inr h')).imp
                (fun c' hh => ⟨List.mem_append_left _ hh.1, hh.2⟩)
            · have ha : a = addr := lookup_singleton_isSome addr a c h'
              subst ha
              exact ⟨c, List.mem_append_right _ (by simp), rfl⟩
        reads := by
          intro c' hc'
          rcases List.mem_append.mp hc' with h | h
          · rcases hInv.reads c' h with h' | h'
            · exact Or.inl h'
            · exact Or.inr (List.mem_append_left _ h')
          · have : c' = c := by simpa using h
            subst this
            exact Or.inr (List.mem_append_right _ (by simp)) }
    · rw [if_neg hpack]
      have hnotkey : BlockKey.content addr ∉ r.storage.map Prod.fst := by
        intro hmem
        have hcov := hInv.memCoversContentKeys addr hmem
        rw [hmi] at hcov
        simp at hcov
      have hput : putBlob r.storage (BlockKey.content addr) (Blob.data c)
          = r.storage ++ [(BlockKey.content addr, Blob.data c)] :=
        putBlob_fresh _ _ _ hnotkey
      have hidx : indexBlocksOf (putBlob r.storage (BlockKey.content addr) (Blob.data c))
          = indexBlocksOf r.storage := by
        rw [hput, indexBlocksOf_append_data]
      have hstlookup : r.storage.lookup (BlockKey.content addr) = none :=
        (lookup_eq_none_iff_not_mem _ _).mpr hnotkey
      have hnoent : entriesFor addr (indexBlocksOf r.storage) = [] := by
        by_contra hne
        have hcov := hInv.memCoversStorage addr hne
        rw [hmi] at hcov
        simp at hcov
      have haddrnotpii : addr ∉ r.pendingIndexItems.map Prod.fst := by
        intro hmem
        have h1 := (lookup_isSome_iff_mem _ _).mpr hmem
        have hcov := hInv.memCoversPendingIdx addr h1
        rw [hmi] at hcov
        simp at hcov
      exact {
        nodupKeys := by
          rw [hput, List.map_append]
          refine List.Nodup.append hInv.nodupKeys (by simp) ?_
          intro a ha hb
          simp at hb
          subst hb
          exact hnotkey ha
        keyBound := by
          intro n hn
          rw [hput, List.map_append]
          constructor
          · intro hmem
            rcases List.mem_append.mp hmem with h | h
            · exact (hInv.keyBound n hn).1 h
            · simp at h
          · intro hmem
            rcases List.mem_append.mp hmem with h | h
            · exact (hInv.keyBound n hn).2 h
            · simp at h
        uniqueEntries := by
          intro a
          rw [hidx]
          exact hInv.uniqueEntries a
        memCoversStorage := by
          intro a ha
          rw [hidx] at ha
          exact (lookup_append_isSome _ _ a).mpr (Or.inl (hInv.memCoversStorage a ha))
        memCoversPendingIdx := by
          intro a ha
          rcases (lookup_append_isSome _ _ a).mp ha with h | h
          · exact (lookup_append_isSome _ _ a).mpr (Or.inl (hInv.memCoversPendingIdx a h))
          · have ha2 : a = addr := lookup_singleton_isSome addr a _ h
            subst ha2
            refine (lookup_append_isSome _ _ addr).mpr (Or.inr ?_)
            rw [lookup_singleton_self]
            simp
        memCoversContentKeys := by
          intro a ha
          rw [hput, List.map_append] at ha
          rcases List.mem_append.mp ha with h | h
          · exact (lookup_append_isSome _ _ a).mpr
              (Or.inl (hInv.memCoversContentKeys a h))
          · have ha2 : a = addr := by simpa using h
            subst ha2
            refine (lookup_append_isSome _ _ addr).mpr (Or.inr ?_)
            rw [lookup_singleton_self]
            simp
        pendingPackNodup := hInv.pendingPackNodup
        pendingIdxNodup := by
          rw [List.map_append]
          refine List.Nodup.append hInv.pendingIdxNodup (by simp) ?_
          intro a ha hb
          simp at hb
          subst hb
          exact haddrnotpii ha
        pendingDisjoint := by
          intro a hppn hpiin
          rcases (lookup_append_isSome _ _ a).mp hpiin with h | h
          · exact hInv.pendingDisjoint a hppn h
          · have ha2 : a = addr := lookup_singleton_isSome addr a _ h
            subst ha2
            rw [hpp] at hppn
            simp at hppn
        pendingPackFresh := by
          intro a h
          have hne : a ≠ addr := by
            intro hcontra
            subst hcontra
            rw [hpp] at h
            simp at h
          rw [lookup_append_none _ _ _ (hInv.pendingPackFresh a h),
            lookup_singleton_ne addr a _ hne]
        pendingIdxNoEntries := by
          intro a ha
          rw [hidx]
          rcases (lookup_append_isSome _ _ a).mp ha with h | h
          · exact hInv.pendingIdxNoEntries a h
          · have ha2 : a = addr := lookup_singleton_isSome addr a _ h
            subst ha2
            exact hnoent
        pendingIdxShape := by
          intro a e' he'
          cases hpa : r.pendingIndexItems.lookup a with
          | some v =>
            rw [lookup_append_some _ _ a v hpa] at he'
            obtain rfl : v = e' := by simpa using he'
            obtain ⟨h1, h2, b, hb, hlen⟩ := hInv.pendingIdxShape a v hpa
            refine ⟨h1, h2, b, ?_, hlen⟩
            rw [hput]
            exact lookup_append_some _ _ _ _ hb
          | none =>
            rw [lookup_append_none _ _ a hpa] at he'
            have ha2 : a = addr := by
              by_contra hcontra
              rw [lookup_singleton_ne addr a _ hcontra] at he'
              simp at he'
            subst ha2
            rw [lookup_singleton_self] at he'
            obtain rfl : (⟨BlockKey.content addr, 0, c.length⟩ : BlockIndexEntry) = e' := by
              simpa using he'
            refine ⟨rfl, rfl, c, ?_, rfl⟩
            rw [hput]
            rw [lookup_append_none _ _ _ hstlookup, lookup_singleton_self]
        domain := by
          intro a ha
          rcases ha with h | h
          · rcases (lookup_append_isSome _ _ a).mp h with h' | h'
            · exact (hInv.domain a (Or.inl h')).imp
                (fun c' hh => ⟨List.mem_append_left _ hh.1, hh.2⟩)
            · have ha2 : a = addr := lookup_singleton_isSome addr a _ h'
              subst ha2
              exact ⟨c, List.mem_append_right _ (by simp), rfl⟩
          · exact (hInv.domain a (Or.inr h)).imp
              (fun c' hh => ⟨List.mem_append_left _ hh.1, hh.2⟩)
        reads := by
          intro c' hc'
          rcases List.mem_append.mp hc' with h | h
          · rcases hInv.reads c' h with h' | h'
            · refine Or.inl ?_
              rw [hput]
              exact readBlock_append_data _ _ _ _ _ h'
            · exact Or.inr h'
          · have hcc : c' = c := by simpa using h
            rw [hcc]
            refine Or.inl ?_
            have hll : lookupLive (r.storage ++ [(BlockKey.content addr, Blob.data c)]) addr
                = none := by
              unfold lookupLive
              rw [indexBlocksOf_append_data, hnoent]
              rfl
            rw [hput]
            unfold readBlock
            rw [← haddr]
            simp only [hll, lookup_append_none _ _ _ hstlookup, lookup_singleton_self] }

end Repo

namespace Repo

/-- A successful lookup exhibits a member. -/
theorem lookup_some_mem {κ β : Type} [BEq κ] [LawfulBEq κ] (l : List (κ × β)) (a : κ) (v : β)
    (h : l.lookup a = some v) : (a, v) ∈ l := by
  induction l with
  | nil => simp [List.lookup] at h
  | cons p rest ih =>
    obtain ⟨k, w⟩ := p
    cases hbk : (a == k) with
    | true =>
      have hak : a = k := eq_of_beq hbk
      simp only [List.lookup, hbk] at h
      have hwv : w = v := by simpa using h
      subst hak
      subst hwv
      exact List.mem_cons_self _ _
    | false =>
      simp only [List.lookup, hbk] at h
      exact List.mem_cons_of_mem _ (ih h)

/-- `flush` empties both pending lists. -/
theorem flush_pendings (r : Repository) :
    (flush r).pendingPackBlocks = [] ∧ (flush r).pendingIndexItems = [] := by
  unfold flush
  by_cases hguard : (r.pendingPackBlocks.isEmpty && r.pendingIndexItems.isEmpty) = true
  · rw [if_pos hguard]
    rw [Bool.and_eq_true] at hguard
    exact ⟨List.isEmpty_iff.mp hguard.1, List.isEmpty_iff.mp hguard.2⟩
  · rw [if_neg hguard]
    exact ⟨rfl, rfl⟩

/-- `flush` preserves the configured block size. -/
theorem flush_maxBlockSize (r : Repository) :
    (flush r).maxBlockSize = r.maxBlockSize := by
  unfold flush
  split <;> rfl

/-- `flush` advances the pack counter by at most one. -/
theorem flush_packCounter (r : Repository) :
    (flush r).packCounter ≤ r.packCounter + 1 := by
  unfold flush
  by_cases hguard : (r.pendingPackBlocks.isEmpty && r.pendingIndexItems.isEmpty) = true
  · rw [if_pos hguard]
    omega
  · rw [if_neg hguard]

end Repo

namespace Repo

/-- `flush` preserves the invariant: the sealed pack group and the pending
standalone entries become one persisted pack index under fresh keys, and
every written content still reads back (now from persisted storage). -/
theorem inv_flush (r : Repository) (written : List Bytes) (hInv : Inv r written) :
    Inv (flush r) written := by
  unfold flush
  by_cases hguard : (r.pendingPackBlocks.isEmpty && r.pendingIndexItems.isEmpty) = true
  · rw [if_pos hguard]
    exact hInv
  · rw [if_neg hguard]
    dsimp only
    by_cases hppE : r.pendingPackBlocks.isEmpty = true
    · -- no pack group: only the pending standalone entries get an index
      have hpp0 : r.pendingPackBlocks = [] := List.isEmpty_iff.mp hppE
      rw [if_pos hppE, hpp0]
      simp only [packEntries, List.append_nil, List.nil_append]
      have hpikfresh : BlockKey.packIndex r.packCounter ∉ r.storage.map Prod.fst :=
        (hInv.keyBound _ le_rfl).2
      have hput2 : putBlob r.storage (BlockKey.packIndex r.packCounter)
          (.index ⟨r.clock, r.pendingIndexItems⟩)
          = r.storage ++ [(BlockKey.packIndex r.packCounter,
              .index ⟨r.clock, r.pendingIndexItems⟩)] :=
        putBlob_fresh _ _ _ hpikfresh
      rw [hput2]
      have hidx2 : indexBlocksOf (r.storage ++ [(BlockKey.packIndex r.packCounter,
            Blob.index ⟨r.clock, r.pendingIndexItems⟩)])
          = indexBlocksOf r.storage
            ++ [(BlockKey.packIndex r.packCounter, ⟨r.clock, r.pendingIndexItems⟩)] :=
        indexBlocksOf_append_index _ _ _
      exact {
        nodupKeys := by
          rw [List.map_append]
          refine List.Nodup.append hInv.nodupKeys (by simp) ?_
          intro a ha hb
          simp at hb
          subst hb
          exact hpikfresh ha
        keyBound := by
          intro n hn
          have hn' : r.packCounter + 1 ≤ n := hn
          rw [List.map_append]
          have hold := hInv.keyBound n (by omega)
          constructor
          · intro hmem
            rcases List.mem_append.mp hmem with h | h
            · exact hold.1 h
            · simp at h
          · intro hmem
            rcases List.mem_append.mp hmem with h | h
            · exact hold.2 h
            · simp at h
              omega
        uniqueEntries := by
          intro a
          rw [hidx2, entriesFor_append]
          cases hml : r.pendingIndexItems.lookup a with
          | none =>
            rw [entriesFor_single_none a _ _ hml]
            simpa using hInv.uniqueEntries a
          | some e =>
            rw [entriesFor_single_some a _ _ e hml]
            have hnil : entriesFor a (indexBlocksOf r.storage) = [] :=
              hInv.pendingIdxNoEntries a (by rw [hml]; simp)
            rw [hnil]
            simp
        memCoversStorage := by
          intro a ha
          rw [hidx2, entriesFor_append] at ha
          cases hml : r.pendingIndexItems.lookup a with
          | none =>
            rw [entriesFor_single_none a _ _ hml, List.append_nil] at ha
            exact hInv.memCoversStorage a ha
          | some e =>
            exact hInv.memCoversPendingIdx a (by rw [hml]; simp)
        memCoversPendingIdx := by
          intro a ha
          simp [List.lookup] at ha
        memCoversContentKeys := by
          intro a ha
          rw [List.map_append] at ha
          rcases List.mem_append.mp ha with h | h
          · exact hInv.memCoversContentKeys a h
          · simp at h
        pendingPackNodup := by simp
        pendingIdxNodup := by simp
        pendingDisjoint := by
          intro a hppn _
          simp [List.lookup] at hppn
        pendingPackFresh := by
          intro a h
          simp [List.lookup] at h
        pendingIdxNoEntries := by
          intro a h
          simp [List.lookup] at h
        pendingIdxShape := by
          intro a e h
          simp [List.lookup] at h
        domain := by
          intro a ha
          rcases ha with h | h
          · exact hInv.domain a (Or.inl h)
          · simp [List.lookup] at h
        reads := by
          intro c' hc'
          rcases hInv.reads c' hc' with hold | hpend
          · refine Or.inl ?_
            cases hml : r.pendingIndexItems.lookup (md5Hex c') with
            | none => exact readBlock_append_index _ _ _ _ _ hml hold
            | some e =>
              have hOldNil : entriesFor (md5Hex c') (indexBlocksOf r.storage) = [] :=
                hInv.pendingIdxNoEntries _ (by rw [hml]; simp)
              have hllold : lookupLive r.storage (md5Hex c') = none := by
                unfold lookupLive
                rw [hOldNil]
                rfl
              unfold readBlock at hold
              rw [hllold] at hold
              dsimp only at hold
              obtain ⟨hpb, hoff, b2, hb2, hlen⟩ := hInv.pendingIdxShape _ e hml
              cases hdl : r.storage.lookup (BlockKey.content (md5Hex c')) with
              | none =>
                rw [hdl] at hold
                simp at hold
              | some blob =>
                cases blob with
                | index ib2 =>
                  rw [hdl] at hold
                  simp at hold
                | data b =>
                  rw [hdl] at hold
                  have hbc : b = c' := by simpa using hold
                  subst hbc
                  have hb2c : b2 = b := by
                    rw [hdl] at hb2
                    have h2 : b = b2 := by simpa using hb2
                    exact h2.symm
                  have hent2a : entriesFor (md5Hex b) (indexBlocksOf
                      (r.storage ++ [(BlockKey.packIndex r.packCounter,
                        Blob.index ⟨r.clock, r.pendingIndexItems⟩)]))
                      = [(r.clock, BlockKey.packIndex r.packCounter, e)] := by
                    rw [hidx2, entriesFor_append, hOldNil,
                      entriesFor_single_some _ _ _ e hml, List.nil_append]
                  have hll2 : lookupLive (r.storage ++ [(BlockKey.packIndex r.packCounter,
                      Blob.index ⟨r.clock, r.pendingIndexItems⟩)]) (md5Hex b) = some e := by
                    unfold lookupLive
                    rw [hent2a]
                    rfl
                  have hlookup2 : (r.storage ++ [(BlockKey.packIndex r.packCounter,
                      Blob.index ⟨r.clock, r.pendingIndexItems⟩)]).lookup e.packBlockID
                      = some (.data b) := by
                    rw [hpb]
                    exact lookup_append_some _ _ _ _ hdl
                  unfold readBlock
                  simp only [hll2, hlookup2, hoff, List.drop_zero]
                  rw [hlen, hb2c, List.take_length]
          · rw [hpp0] at hpend
            simp at hpend }
    · rw [if_neg hppE]
      have hpkfresh : BlockKey.pack r.packCounter ∉ r.storage.map Prod.fst :=
        (hInv.keyBound _ le_rfl).1
      have hpikfresh : BlockKey.packIndex r.packCounter ∉ r.storage.map Prod.fst :=
        (hInv.keyBound _ le_rfl).2
      have hput1 : putBlob r.storage (BlockKey.pack r.packCounter)
          (.data (r.pendingPackBlocks.map Prod.snd).flatten)
          = r.storage ++ [(BlockKey.pack r.packCounter,
              .data (r.pendingPackBlocks.map Prod.snd).flatten)] :=
        putBlob_fresh _ _ _ hpkfresh
      rw [hput1]
      have hpik1 : BlockKey.packIndex r.packCounter
          ∉ (r.storage ++ [(BlockKey.pack r.packCounter,
              Blob.data (r.pendingPackBlocks.map Prod.snd).flatten)]).map Prod.fst := by
        rw [List.map_append]
        intro hmem
        rcases List.mem_append.mp hmem with h | h
        · exact hpikfresh h
        · simp at h
      have hput2 : putBlob (r.storage ++ [(BlockKey.pack r.packCounter,
            Blob.data (r.pendingPackBlocks.map Prod.snd).flatten)])
          (BlockKey.packIndex r.packCounter)
          (.index ⟨r.clock, packEntries (BlockKey.pack r.packCounter) 0 r.pendingPackBlocks
            ++ r.pendingIndexItems⟩)
          = (r.storage ++ [(BlockKey.pack r.packCounter,
              Blob.data (r.pendingPackBlocks.map Prod.snd).flatten)])
            ++ [(BlockKey.packIndex r.packCounter,
              .index ⟨r.clock, packEntries (BlockKey.pack r.packCounter) 0 r.pendingPackBlocks
                ++ r.pendingIndexItems⟩)] :=
        putBlob_fresh _ _ _ hpik1
      rw [hput2]
      have hidx2 : indexBlocksOf ((r.storage ++ [(BlockKey.pack r.packCounter,
            Blob.data (r.pendingPackBlocks.map Prod.snd).flatten)])
          ++ [(BlockKey.packIndex r.packCounter,
            Blob.index ⟨r.clock, packEntries (BlockKey.pack r.packCounter) 0 r.pendingPackBlocks
              ++ r.pendingIndexItems⟩)])
          = indexBlocksOf r.storage ++ [(BlockKey.packIndex r.packCounter,
              ⟨r.clock, packEntries (BlockKey.pack r.packCounter) 0 r.pendingPackBlocks
                ++ r.pendingIndexItems⟩)] := by
        rw [indexBlocksOf_append_index, indexBlocksOf_append_data]
      have hpiteskeys : (packEntries (BlockKey.pack r.packCounter) 0
          r.pendingPackBlocks).map Prod.fst = r.pendingPackBlocks.map Prod.fst :=
        packEntries_keys _ _ 0
      have hItemsSome : ∀ a, (((packEntries (BlockKey.pack r.packCounter) 0
            r.pendingPackBlocks ++ r.pendingIndexItems).lookup a)).isSome →
          (r.pendingPackBlocks.lookup a).isSome ∨ (r.pendingIndexItems.lookup a).isSome := by
        intro a h
        rcases (lookup_append_isSome _ _ a).mp h with h | h
        · left
          rw [lookup_isSome_iff_mem] at h ⊢
          rwa [hpiteskeys] at h
        · right
          exact h
      have hNewFresh : ∀ a, (((packEntries (BlockKey.pack r.packCounter) 0
            r.pendingPackBlocks ++ r.pendingIndexItems).lookup a)).isSome →
          entriesFor a (indexBlocksOf r.storage) = [] := by
        intro a h
        rcases hItemsSome a h with h | h
        · by_contra hne
          have h2 := hInv.memCoversStorage a hne
          rw [hInv.pendingPackFresh a h] at h2
          simp at h2
        · exact hInv.pendingIdxNoEntries a h
      exact {
        nodupKeys := by
          rw [List.map_append, List.map_append]
          refine List.Nodup.append (List.Nodup.append hInv.nodupKeys (by simp) ?_) (by simp) ?_
          · intro a ha hb
            simp at hb
            subst hb
            exact hpkfresh ha
          · intro a ha hb
            simp at hb
            subst hb
            rcases List.mem_append.mp ha with h | h
            · exact hpikfresh h
            · simp at h
        keyBound := by
          intro n hn
          have hn' : r.packCounter + 1 ≤ n := hn
          have hold := hInv.keyBound n (by omega)
          rw [List.map_append, List.map_append]
          constructor
          · intro hmem
            rcases List.mem_append.mp hmem with h | h
            · rcases List.mem_append.mp h with h2 | h2
              · exact hold.1 h2
              · simp at h2
                omega
            · simp at h
          · intro hmem
            rcases List.mem_append.mp hmem with h | h
            · rcases List.mem_append.mp h with h2 | h2
              · exact hold.2 h2
              · simp at h2
            · simp at h
              omega
        uniqueEntries := by
          intro a
          rw [hidx2, entriesFor_append]
          cases hml : (packEntries (BlockKey.pack r.packCounter) 0 r.pendingPackBlocks
              ++ r.pendingIndexItems).lookup a with
          | none =>
            rw [entriesFor_single_none a _ _ hml]
            simpa using hInv.uniqueEntries a
          | some e =>
            rw [entriesFor_single_some a _ _ e hml]
            rw [hNewFresh a (by rw [hml]; simp)]
            simp
        memCoversStorage := by
          intro a ha
          rw [hidx2, entriesFor_append] at ha
          cases hml : (packEntries (BlockKey.pack r.packCounter) 0 r.pendingPackBlocks
              ++ r.pendingIndexItems).lookup a with
          | none =>
            rw [entriesFor_single_none a _ _ hml, List.append_nil] at ha
            exact (lookup_append_isSome _ _ a).mpr (Or.inl (hInv.memCoversStorage a ha))
          | some e =>
            rcases hItemsSome a (by rw [hml]; simp) with h | h
            · refine (lookup_append_isSome _ _ a).mpr (Or.inr ?_)
              rw [lookup_isSome_iff_mem, hpiteskeys, ← lookup_isSome_iff_mem]
              exact h
            · exact (lookup_append_isSome _ _ a).mpr
                (Or.inl (hInv.memCoversPendingIdx a h))
        memCoversPendingIdx := by
          intro a ha
          simp [List.lookup] at ha
        memCoversContentKeys := by
          intro a ha
          rw [List.map_append, List.map_append] at ha
          rcases List.mem_append.mp ha with h | h
          · rcases List.mem_append.mp h with h2 | h2
            · exact (lookup_append_isSome _ _ a).mpr
                (Or.inl (hInv.memCoversContentKeys a h2))
            · simp at h2
          · simp at h
        pendingPackNodup := by simp
        pendingIdxNodup := by simp
        pendingDisjoint := by
          intro a hppn _
          simp [List.lookup] at hppn
        pendingPackFresh := by
          intro a h
          simp [List.lookup] at h
        pendingIdxNoEntries := by
          intro a h
          simp [List.lookup] at h
        pendingIdxShape := by
          intro a e h
          simp [List.lookup] at h
        domain := by
          intro a ha
          rcases ha with h | h
          · rcases (lookup_append_isSome _ _ a).mp h with h2 | h2
            · exact hInv.domain a (Or.inl h2)
            · refine hInv.domain a (Or.inr ?_)
              rw [lookup_isSome_iff_mem]
              rw [lookup_isSome_iff_mem, hpiteskeys] at h2
              exact h2
          · simp [List.lookup] at h
        reads := by
          intro c' hc'
          rcases hInv.reads c' hc' with hold | hpend
          · refine Or.inl ?_
            cases hml : (packEntries (BlockKey.pack r.packCounter) 0 r.pendingPackBlocks
                ++ r.pendingIndexItems).lookup (md5Hex c') with
            | none =>
              exact readBlock_append_index _ _ _ _ _ hml
                (readBlock_append_data _ _ _ _ _ hold)
            | some e =>
              have hfr : entriesFor (md5Hex c') (indexBlocksOf r.storage) = [] :=
                hNewFresh _ (by rw [hml]; simp)
              have hllold : lookupLive r.storage (md5Hex c') = none := by
                unfold lookupLive
                rw [hfr]
                rfl
              unfold readBlock at hold
              rw [hllold] at hold
              dsimp only at hold
              cases hdl : r.storage.lookup (BlockKey.content (md5Hex c')) with
              | none =>
                rw [hdl] at hold
                simp at hold
              | some blob =>
                cases blob with
                | index ib2 =>
                  rw [hdl] at hold
                  simp at hold
                | data b =>
                  rw [hdl] at hold
                  have hbc : b = c' := by simpa using hold
                  subst hbc
                  have hnotpp : md5Hex b ∉ r.pendingPackBlocks.map Prod.fst := by
                    intro hmem
                    have h2 := hInv.pendingPackFresh _
                      ((lookup_isSome_iff_mem _ _).mpr hmem)
                    have hmemk : BlockKey.content (md5Hex b) ∈ r.storage.map Prod.fst := by
                      rw [← lookup_isSome_iff_mem, hdl]
                      simp
                    have h3 := hInv.memCoversContentKeys _ hmemk
                    rw [h2] at h3
                    simp at h3
                  have hpitesnone : (packEntries (BlockKey.pack r.packCounter) 0
                      r.pendingPackBlocks).lookup (md5Hex b) = none := by
                    rw [lookup_eq_none_iff_not_mem, hpiteskeys]
                    exact hnotpp
                  have hmlitems := hml
                  rw [lookup_append_none _ _ _ hpitesnone] at hml
                  obtain ⟨hpb, hoff, b2, hb2, hlen⟩ := hInv.pendingIdxShape _ e hml
                  have hb2c : b2 = b := by
                    rw [hdl] at hb2
                    have h2 : b = b2 := by simpa using hb2
                    exact h2.symm
                  have hent2a : entriesFor (md5Hex b) (indexBlocksOf
                      ((r.storage ++ [(BlockKey.pack r.packCounter,
                        Blob.data (r.pendingPackBlocks.map Prod.snd).flatten)])
                      ++ [(BlockKey.packIndex r.packCounter,
                        Blob.index ⟨r.clock, packEntries (BlockKey.pack r.packCounter) 0
                          r.pendingPackBlocks ++ r.pendingIndexItems⟩)]))
                      = [(r.clock, BlockKey.packIndex r.packCounter, e)] := by
                    rw [hidx2, entriesFor_append, hfr,
                      entriesFor_single_some _ _ _ e hmlitems, List.nil_append]
                  have hll2 : lookupLive ((r.storage ++ [(BlockKey.pack r.packCounter,
                      Blob.data (r.pendingPackBlocks.map Prod.snd).flatten)])
                      ++ [(BlockKey.packIndex r.packCounter,
                        Blob.index ⟨r.clock, packEntries (BlockKey.pack r.packCounter) 0
                          r.pendingPackBlocks ++ r.pendingIndexItems⟩)]) (md5Hex b)
                      = some e := by
                    unfold lookupLive
                    rw [hent2a]
                    rfl
                  have hlookup2 : ((r.storage ++ [(BlockKey.pack r.packCounter,
                      Blob.data (r.pendingPackBlocks.map Prod.snd).flatten)])
                      ++ [(BlockKey.packIndex r.packCounter,
                        Blob.index ⟨r.clock, packEntries (BlockKey.pack r.packCounter) 0
                          r.pendingPackBlocks ++ r.pendingIndexItems⟩)]).lookup e.packBlockID
                      = some (.data b) := by
                    rw [hpb]
                    exact lookup_append_some _ _ _ _ (lookup_append_some _ _ _ _ hdl)
                  unfold readBlock
                  simp only [hll2, hlookup2, hoff, List.drop_zero]
                  rw [hlen, hb2c, List.take_length]
          · refine Or.inl ?_
            have hppsome : (r.pendingPackBlocks.lookup (md5Hex c')).isSome := by
              rw [lookup_isSome_iff_mem]
              exact List.mem_map.mpr ⟨(md5Hex c', c'), hpend, rfl⟩
            obtain ⟨off, hlk, hsl⟩ := packEntries_lookup_slice (BlockKey.pack r.packCounter)
              r.pendingPackBlocks (md5Hex c') c' hInv.pendingPackNodup hpend ([] : Bytes)
            simp only [List.length_nil, List.nil_append] at hlk hsl
            have hfr : entriesFor (md5Hex c') (indexBlocksOf r.storage) = [] := by
              by_contra hne
              have h2 := hInv.memCoversStorage _ hne
              rw [hInv.pendingPackFresh _ hppsome] at h2
              simp at h2
            have hmlitems : (packEntries (BlockKey.pack r.packCounter) 0 r.pendingPackBlocks
                ++ r.pendingIndexItems).lookup (md5Hex c')
                = some ⟨BlockKey.pack r.packCounter, off, c'.length⟩ :=
              lookup_append_some _ _ _ _ hlk
            have hent2a : entriesFor (md5Hex c') (indexBlocksOf
                ((r.storage ++ [(BlockKey.pack r.packCounter,
                  Blob.data (r.pendingPackBlocks.map Prod.snd).flatten)])
                ++ [(BlockKey.packIndex r.packCounter,
                  Blob.index ⟨r.clock, packEntries (BlockKey.pack r.packCounter) 0
                    r.pendingPackBlocks ++ r.pendingIndexItems⟩)]))
                = [(r.clock, BlockKey.packIndex r.packCounter,
                    ⟨BlockKey.pack r.packCounter, off, c'.length⟩)] := by
              rw [hidx2, entriesFor_append, hfr,
                entriesFor_single_some _ _ _ _ hmlitems, List.nil_append]
            have hll2 : lookupLive ((r.storage ++ [(BlockKey.pack r.packCounter,
                Blob.data (r.pendingPackBlocks.map Prod.snd).flatten)])
                ++ [(BlockKey.packIndex r.packCounter,
                  Blob.index ⟨r.clock, packEntries (BlockKey.pack r.packCounter) 0
                    r.pendingPackBlocks ++ r.pendingIndexItems⟩)]) (md5Hex c')
                = some ⟨BlockKey.pack r.packCounter, off, c'.length⟩ := by
              unfold lookupLive
              rw [hent2a]
              rfl
            have hpklookup : (r.storage ++ [(BlockKey.pack r.packCounter,
                Blob.data (r.pendingPackBlocks.map Prod.snd).flatten)]).lookup
                  (BlockKey.pack r.packCounter)
                = some (Blob.data (r.pendingPackBlocks.map Prod.snd).flatten) := by
              rw [lookup_append_none _ _ _
                ((lookup_eq_none_iff_not_mem _ _).mpr hpkfresh), lookup_singleton_self]
            have hlookup2 : ((r.storage ++ [(BlockKey.pack r.packCounter,
                Blob.data (r.pendingPackBlocks.map Prod.snd).flatten)])
                ++ [(BlockKey.packIndex r.packCounter,
                  Blob.index ⟨r.clock, packEntries (BlockKey.pack r.packCounter) 0
                    r.pendingPackBlocks ++ r.pendingIndexItems⟩)]).lookup
                  (BlockKey.pack r.packCounter)
                = some (Blob.data (r.pendingPackBlocks.map Prod.snd).flatten) :=
              lookup_append_some _ _ _ _ hpklookup
            unfold readBlock
            simp only [hll2, hlookup2]
            rw [hsl] }

end Repo

namespace Repo

/-- A buffer within the block size forms a single chunk. -/
theorem chunkify_short (m : Nat) (b : Bytes) (h : b.length ≤ m) : chunkify m b = [b] := by
  unfold chunkify
  by_cases hm : m = 0
  · rw [if_pos hm]
  · rw [if_neg hm]
    cases hfuel : b.length with
    | zero => rfl
    | succ k =>
      unfold chunkifyAux
      rw [if_pos h]

/-- Writing a single-chunk content yields the direct ID of its address and
the `writeBlock` state. -/
theorem writeObjectD_short (r : Repository) (c : Bytes) (h : c.length ≤ r.maxBlockSize) :
    writeObjectD r c = (⟨md5Hex c⟩, (writeBlock r c).2) := by
  unfold writeObjectD writeObject ObjectWriter.write ObjectWriter.result
  dsimp only
  rw [List.nil_append, chunkify_short r.maxBlockSize c h]
  dsimp only
  rw [writeBlock_fst]
  rfl

/-- `writeObjectD` preserves the configured block size. -/
theorem writeObjectD_maxBlockSize (r : Repository) (c : Bytes) :
    (writeObjectD r c).2.maxBlockSize = r.maxBlockSize := by
  unfold writeObjectD writeObject ObjectWriter.write ObjectWriter.result
  dsimp only
  cases hch : chunkify r.maxBlockSize ([] ++ c) with
  | nil => rfl
  | cons x xs =>
    cases xs with
    | nil =>
      dsimp only
      exact writeBlock_maxBlockSize r x
    | cons y ys => rfl

/-- `writeObjectD` preserves the pack counter. -/
theorem writeObjectD_packCounter (r : Repository) (c : Bytes) :
    (writeObjectD r c).2.packCounter = r.packCounter := by
  unfold writeObjectD writeObject ObjectWriter.write ObjectWriter.result
  dsimp only
  cases hch : chunkify r.maxBlockSize ([] ++ c) with
  | nil => rfl
  | cons x xs =>
    cases xs with
    | nil =>
      dsimp only
      exact writeBlock_packCounter r x
    | cons y ys => rfl

/-- `writeAll` preserves the configured block size. -/
theorem writeAll_maxBlockSize (cs : List Bytes) : ∀ r : Repository,
    (writeAll r cs).maxBlockSize = r.maxBlockSize := by
  induction cs with
  | nil => intro r; rfl
  | cons c cs ih =>
    intro r
    have hstep : writeAll r (c :: cs) = writeAll (writeObjectD r c).2 cs := rfl
    rw [hstep, ih, writeObjectD_maxBlockSize]

/-- `writeAll` preserves the pack counter. -/
theorem writeAll_packCounter (cs : List Bytes) : ∀ r : Repository,
    (writeAll r cs).packCounter = r.packCounter := by
  induction cs with
  | nil => intro r; rfl
  | cons c cs ih =>
    intro r
    have hstep : writeAll r (c :: cs) = writeAll (writeObjectD r c).2 cs := rfl
    rw [hstep, ih, writeObjectD_packCounter]

/-- `runPhases` advances the pack counter at most once per phase. -/
theorem runPhases_packCounter (phases : List (List Bytes)) : ∀ r : Repository,
    (runPhases r phases).packCounter ≤ r.packCounter + phases.length := by
  induction phases with
  | nil => intro r; simp [runPhases]
  | cons cs phases ih =>
    intro r
    have hstep : runPhases r (cs :: phases) = runPhases (flush (writeAll r cs)) phases := rfl
    rw [hstep]
    have h1 := ih (flush (writeAll r cs))
    have h2 := flush_packCounter (writeAll r cs)
    rw [writeAll_packCounter] at h2
    simp only [List.length_cons]
    omega

/-- After `runPhases` from a state with nothing pending, nothing is
pending. -/
theorem runPhases_pends (phases : List (List Bytes)) : ∀ r : Repository,
    r.pendingPackBlocks = [] ∧ r.pendingIndexItems = [] →
    (runPhases r phases).pendingPackBlocks = [] ∧
      (runPhases r phases).pendingIndexItems = [] := by
  induction phases with
  | nil =>
    intro r h
    exact h
  | cons cs phases ih =>
    intro r _
    have hstep : runPhases r (cs :: phases) = runPhases (flush (writeAll r cs)) phases := rfl
    rw [hstep]
    exact ih _ (flush_pendings _)

/-- `writeAll` preserves the invariant across a batch of single-chunk
writes. -/
theorem inv_writeAll (cs : List Bytes) : ∀ (r : Repository) (written : List Bytes),
    Inv r written →
    (∀ x ∈ cs, x.length ≤ r.maxBlockSize) →
    (∀ x ∈ written ++ cs, ∀ y ∈ written ++ cs, md5Hex x = md5Hex y → x = y) →
    Inv (writeAll r cs) (written ++ cs) := by
  induction cs with
  | nil =>
    intro r written hInv _ _
    simpa using hInv
  | cons c cs ih =>
    intro r written hInv hlen hpair
    have hstep : writeAll r (c :: cs) = writeAll (writeObjectD r c).2 cs := rfl
    rw [hstep, writeObjectD_short r c (hlen c (List.mem_cons_self c cs))]
    dsimp only
    have hInv1 : Inv (writeBlock r c).2 (written ++ [c]) :=
      inv_writeBlock r written c hInv (fun c' hc' heq =>
        hpair c' (List.mem_append_left _ hc') c
          (List.mem_append_right _ (List.mem_cons_self c cs)) heq)
    have hre : (written ++ [c]) ++ cs = written ++ c :: cs := by simp
    have h2 := ih (writeBlock r c).2 (written ++ [c]) hInv1
      (fun x hx => by
        rw [writeBlock_maxBlockSize]
        exact hlen x (List.mem_cons_of_mem _ hx))
      (by rw [hre]; exact hpair)
    rw [hre] at h2
    exact h2

/-- `runPhases` preserves the invariant across write-then-flush phases. -/
theorem inv_runPhases (phases : List (List Bytes)) : ∀ (r : Repository) (written : List Bytes),
    Inv r written →
    (∀ x ∈ phases.flatten, x.length ≤ r.maxBlockSize) →
    (∀ x ∈ written ++ phases.flatten, ∀ y ∈ written ++ phases.flatten,
      md5Hex x = md5Hex y → x = y) →
    Inv (runPhases r phases) (written ++ phases.flatten) := by
  induction phases with
  | nil =>
    intro r written hInv _ _
    simpa using hInv
  | cons cs phases ih =>
    intro r written hInv hlen hpair
    have hstep : runPhases r (cs :: phases) = runPhases (flush (writeAll r cs)) phases := rfl
    rw [hstep]
    have hflat : (cs :: phases).flatten = cs ++ phases.flatten := by simp
    have hmem1 : ∀ x, x ∈ written ++ cs → x ∈ written ++ (cs :: phases).flatten := by
      intro x hx
      rw [hflat]
      rcases List.mem_append.mp hx with h | h
      · exact List.mem_append_left _ h
      · exact List.mem_append_right _ (List.mem_append_left _ h)
    have hInv1 : Inv (writeAll r cs) (written ++ cs) := inv_writeAll cs r written hInv
      (fun x hx => hlen x (by rw [hflat]; exact List.mem_append_left _ hx))
      (fun x hx y hy heq => hpair x (hmem1 x hx) y (hmem1 y hy) heq)
    have hInv2 : Inv (flush (writeAll r cs)) (written ++ cs) := inv_flush _ _ hInv1
    have hre : (written ++ cs) ++ phases.flatten = written ++ (cs :: phases).flatten := by
      rw [hflat]
      simp
    have h3 := ih (flush (writeAll r cs)) (written ++ cs) hInv2
      (fun x hx => by
        rw [flush_maxBlockSize, writeAll_maxBlockSize]
        exact hlen x (by rw [hflat]; exact List.mem_append_right _ hx))
      (by rw [hre]; exact hpair)
    rw [hre] at h3
    exact h3

/-- The invariant holds right after `Initialize`. -/
theorem inv_init (mbs : Nat) (thr : Int) : Inv (initRepo mbs thr) [] := by
  refine ⟨?_, ?_, ?_, ?_, ?_, ?_, ?_, ?_, ?_, ?_, ?_, ?_, ?_, ?_⟩
  · show (initStorage.map Prod.fst).Nodup
    decide
  · intro n _
    constructor
    · intro h
      simp [initRepo, initStorage] at h
    · intro h
      simp [initRepo, initStorage] at h
  · intro a
    simp [initRepo, initStorage, indexBlocksOf, entriesFor]
  · intro a ha
    simp [initRepo, initStorage, indexBlocksOf, entriesFor] at ha
  · intro a ha
    simp [initRepo, List.lookup] at ha
  · intro a ha
    simp [initRepo, initStorage] at ha
  · simp [initRepo]
  · simp [initRepo]
  · intro a h _
    simp [initRepo, List.lookup] at h
  · intro a h
    simp [initRepo, List.lookup] at h
  · intro a h
    simp [initRepo, List.lookup] at h
  · intro a e h
    simp [initRepo, List.lookup] at h
  · intro a h
    rcases h with h | h <;> simp [initRepo, List.lookup] at h
  · intro c hc
    simp at hc

end Repo

/-- C6.  For every set of (single-chunk) objects written before `Close`
(any number of write batches, each followed by a flush), and assuming the
content-addresses of the written contents do not collide: after reopening
the repository over the persisted storage every object reads back
identically, and after running `CompactIndexes` with any cutoff (a past
cutoff compacts nothing, a future one merges every index) under a fresh
index key and reopening again, every object still reads back identically —
compaction preserves the live content-address set. -/
theorem Repo.compaction_preserves_reads (phases : List (List Bytes))
    (mbs : Nat) (thr : Int) (cutoff newKey now : Nat)
    (hlen : ∀ c ∈ phases.flatten, c.length ≤ mbs)
    (hinj : ∀ c ∈ phases.flatten, ∀ c' ∈ phases.flatten, md5Hex c = md5Hex c' → c = c')
    (hkey : phases.length ≤ newKey) :
    ∀ c ∈ phases.flatten,
      Repo.openObject (Repo.openRepo
        (Repo.runPhases (Repo.initRepo mbs thr) phases).storage mbs thr).storage
        ⟨md5Hex c⟩ = .ok c ∧
      Repo.openObject (Repo.openRepo (Repo.compactIndexes cutoff newKey now
          (Repo.runPhases (Repo.initRepo mbs thr) phases).storage) mbs thr).storage
        ⟨md5Hex c⟩ = .ok c := by
  intro c hc
  have hInv : Repo.Inv (Repo.runPhases (Repo.initRepo mbs thr) phases) phases.flatten := by
    have h := Repo.inv_runPhases phases (Repo.initRepo mbs thr) [] (Repo.inv_init mbs thr)
      (fun x hx => hlen x hx) (by simpa using hinj)
    simpa using h
  have hpends := Repo.runPhases_pends phases (Repo.initRepo mbs thr) ⟨rfl, rfl⟩
  have hread : Repo.readBlock (Repo.runPhases (Repo.initRepo mbs thr) phases).storage
      (md5Hex c) = .ok c := by
    rcases hInv.reads c hc with h | h
    · exact h
    · rw [hpends.1] at h
      simp at h
  constructor
  · show Repo.openObject (Repo.runPhases (Repo.initRepo mbs thr) phases).storage
      ⟨md5Hex c⟩ = .ok c
    unfold Repo.openObject
    simp [hread]
  · have hfresh : Repo.BlockKey.packIndex newKey
        ∉ (Repo.runPhases (Repo.initRepo mbs thr) phases).storage.map Prod.fst := by
      have hcnt := Repo.runPhases_packCounter phases (Repo.initRepo mbs thr)
      have hcnt0 : (Repo.runPhases (Repo.initRepo mbs thr) phases).packCounter
          ≤ phases.length := by
        have h0 : (Repo.initRepo mbs thr).packCounter = 0 := rfl
        omega
      exact (hInv.keyBound newKey (by omega)).2
    have hread2 := Repo.readBlock_compact _ cutoff newKey now _ c hfresh
      hInv.uniqueEntries hread
    show Repo.openObject (Repo.compactIndexes cutoff newKey now
      (Repo.runPhases (Repo.initRepo mbs thr) phases).storage) ⟨md5Hex c⟩ = .ok c
    unfold Repo.openObject
    simp [hread2]

/-- Witness for C6: the three packing-scenario contents written in two
flush-separated batches, compacted at an arbitrary concrete cutoff under a
fresh key. -/
theorem Repo.compaction_preserves_reads_witness :
    (strBytes "thank you!" ∈
      ([[strBytes "hello, how do you do?", strBytes "hi, how are you?"],
        [strBytes "thank you!"]] : List (List Bytes)).flatten) ∧
    (Repo.openObject (Repo.openRepo
        (Repo.runPhases (Repo.initRepo 200 10000)
          [[strBytes "hello, how do you do?", strBytes "hi, how are you?"],
           [strBytes "thank you!"]]).storage 200 10000).storage
        ⟨md5Hex (strBytes "thank you!")⟩ = .ok (strBytes "thank you!") ∧
      Repo.openObject (Repo.openRepo (Repo.compactIndexes 5 7 9
          (Repo.runPhases (Repo.initRepo 200 10000)
            [[strBytes "hello, how do you do?", strBytes "hi, how are you?"],
             [strBytes "thank you!"]]).storage) 200 10000).storage
        ⟨md5Hex (strBytes "thank you!")⟩ = .ok (strBytes "thank you!")) :=
  ⟨by decide,
   Repo.compaction_preserves_reads
     [[strBytes "hello, how do you do?", strBytes "hi, how are you?"],
      [strBytes "thank you!"]] 200 10000 5 7 9
     (by decide) (by decide) (by decide) (strBytes "thank you!") (by decide)⟩
